import Mathlib

/-!
Verification development for the PO-file batch translation pipeline
(`src/po_translate_en_to_nb.py`).

Python strings are modelled as `List Char` (a sequence of Unicode code
points), so Python's `x in s` substring test is the list relation
`<:+:`, slicing is `take`/`drop`, and `ord c` is `Char.toNat`.

Character-class notes for the regular expressions embedded below:
Python's `re` module is Unicode-aware.  `\w`, `\d` and `\s` are modelled
over the alphabet this repository's catalogs actually use (ASCII plus
the German diacritics that appear in the source): `\d` as the ASCII
digits, `\s` as the six ASCII whitespace characters, and `\w` as ASCII
alphanumerics, underscore and the German diacritic letters.  Case
folding (`re.I`) is modelled by `Char.toLower`, which is exact on this
alphabet.
-/
namespace POTrans

/-- A Python `str`, modelled as its sequence of code points. -/
abbrev Str := List Char

/-- Python `needle in hay` on strings: substring containment. -/
def pyIn (needle hay : Str) : Bool := decide (needle <:+: hay)

/-! ### Language heuristic classifiers (`looks_english`, `looks_german`) -/
/-- The German-specific characters tested by `looks_german`
(source line 52: `("ä", "ö", "ü", "ß", "Ä", "Ö", "Ü")`). -/
def germanChars : List Char := ['ä', 'ö', 'ü', 'ß', 'Ä', 'Ö', 'Ü']

/-- Python `\w` (word character), restricted to the modelled alphabet:
ASCII alphanumerics, underscore, and the German diacritic letters. -/
def pyWordChar (c : Char) : Bool :=
  c.isAlphanum || c == '_' || decide (c ∈ germanChars)

/-- Case-insensitive character comparison (`re.I`). -/
def ciEq (a b : Char) : Bool := a.toLower == b.toLower

/-- Case-insensitive "w begins here" test. -/
def ciPrefixAt : Str → Str → Bool
  | [], _ => true
  | _ :: _, [] => false
  | c :: cs, d :: ds => ciEq c d && ciPrefixAt cs ds

/-- `\b w \b` matches (case-insensitively) at position `i` of `s`,
for a word `w` consisting of word characters: the characters of `w`
appear at `i` and the neighbouring characters (if any) are non-word. -/
def wordOccursAt (w s : Str) (i : Nat) : Bool :=
  ciPrefixAt w (s.drop i) &&
  (i == 0 || !pyWordChar (s.getD (i - 1) ' ')) &&
  (i + w.length == s.length || !pyWordChar (s.getD (i + w.length) ' '))

/-- `bool(pattern.search(s))` for a pattern `\b(w1|w2|...)\b` with
flag `re.I`: some word of the list occurs somewhere in `s`. -/
def searchWordsCI (words : List Str) (s : Str) : Bool :=
  (List.range s.length).any (fun i => words.any (fun w => wordOccursAt w s i))

/-- The `_EN_HINTS` word alternation (source line 34), with the regex
optional groups `products?` and `reviews?` expanded into both forms. -/
def _EN_HINTS : List Str :=
  ["accept".toList, "settings".toList, "cookie".toList, "filter".toList,
   "configure".toList, "product".toList, "products".toList, "review".toList,
   "reviews".toList, "customer".toList, "archive".toList, "example".toList,
   "save".toList, "cancel".toList, "next".toList, "previous".toList,
   "email".toList, "password".toList, "sign".toList, "log".toList,
   "home".toList, "about".toList, "contact".toList, "help".toList]

/-- The `_DE_HINTS` word alternation (source line 46). -/
def _DE_HINTS : List Str :=
  ["der".toList, "die".toList, "das".toList, "und".toList, "ist".toList,
   "nicht".toList, "für".toList, "mit".toList, "ein".toList, "eine".toList,
   "zu".toList, "von".toList, "auf".toList, "als".toList, "auch".toList]

/-- `all(ord(c) < 128 for c in s)` (source line 41). -/
def asciiish (s : Str) : Bool := s.all (fun c => decide (c.toNat < 128))

/-- `looks_english` (source lines 36-42): empty strings are not English;
otherwise the string must be ASCII-only AND contain an `_EN_HINTS` word. -/
def looks_english (s : Str) : Bool :=
  if s.isEmpty then false
  else asciiish s && searchWordsCI _EN_HINTS s

/-- `looks_german` (source lines 48-54): empty strings are not German;
a German-specific character suffices; otherwise search `_DE_HINTS`. -/
def looks_german (s : Str) : Bool :=
  if s.isEmpty then false
  else if s.any (fun c => decide (c ∈ germanChars)) then true
  else searchWordsCI _DE_HINTS s

/-! ### Placeholder extraction (`_PLACEHOLDER_RE`, `extract_placeholders`)

The regex (source lines 57-65) is embedded as a backtracking parser.
A parser maps the input to the list of possible remainders, in the
priority order of Python's backtracking engine (alternatives tried
left to right, quantifiers greedy). -/
/-- A backtracking matcher: input suffix to candidate remainders, in
priority order. -/
abbrev Px : Type := Str → List Str

/-- Match one character satisfying `f`. -/
def pchar (f : Char → Bool) : Px := fun s =>
  match s with
  | [] => []
  | c :: r => if f c then [r] else []

/-- Sequencing: feed every remainder of `p` to `q`, keeping order. -/
def pseq (p q : Px) : Px := fun s => (p s).flatMap q

/-- Alternation, earlier alternative preferred. -/
def palt (p q : Px) : Px := fun s => p s ++ q s

/-- The empty pattern. -/
def pemp : Px := fun s => [s]

/-- Greedy `?`: try consuming first. -/
def popt (p : Px) : Px := fun s => p s ++ [s]

/-- Greedy `*` with explicit fuel; every iteration must consume. -/
def pstarAux (p : Px) : Nat → Str → List Str
  | 0, s => [s]
  | n + 1, s =>
    ((p s).filter (fun r => decide (r.length < s.length))).flatMap
      (pstarAux p n) ++ [s]

/-- Greedy `*` (fuel `s.length` suffices: each iteration consumes). -/
def pstar (p : Px) : Px := fun s => pstarAux p s.length s

/-- Greedy `+`. -/
def pplus (p : Px) : Px := pseq p (pstar p)

/-- Literal string match. -/
def pstr (cs : Str) : Px := cs.foldr (fun c acc => pseq (pchar (· == c)) acc) pemp

/-- Case-insensitive literal string match. -/
def pstrCI (cs : Str) : Px := cs.foldr (fun c acc => pseq (pchar (ciEq c)) acc) pemp

/-- printf flag characters `[-+0 #]`. -/
def isFlagChar (c : Char) : Bool :=
  c == '-' || c == '+' || c == '0' || c == ' ' || c == '#'

/-- printf length modifiers `[hlLqjzt]` under `re.I`. -/
def isLenMod (c : Char) : Bool :=
  c.toLower == 'h' || c.toLower == 'l' || c.toLower == 'q' ||
  c.toLower == 'j' || c.toLower == 'z' || c.toLower == 't'

/-- printf conversion characters `[diouxXeEfFgGaAcspn%]` under `re.I`. -/
def isConvChar (c : Char) : Bool :=
  c.toLower == 'd' || c.toLower == 'i' || c.toLower == 'o' ||
  c.toLower == 'u' || c.toLower == 'x' || c.toLower == 'e' ||
  c.toLower == 'f' || c.toLower == 'g' || c.toLower == 'a' ||
  c.toLower == 'c' || c.toLower == 's' || c.toLower == 'p' ||
  c.toLower == 'n' || c == '%'

/-- Alternative (a): `%(?:\d+\$)?[-+0 #]*(?:\d+|\*)?(?:\.(?:\d+|\*))?[hlLqjzt]*[diouxXeEfFgGaAcspn%]`. -/
def altPrintf : Px :=
  pseq (pchar (· == '%'))
    (pseq (popt (pseq (pplus (pchar Char.isDigit)) (pchar (· == '$'))))
      (pseq (pstar (pchar isFlagChar))
        (pseq (popt (palt (pplus (pchar Char.isDigit)) (pchar (· == '*'))))
          (pseq (popt (pseq (pchar (· == '.'))
                  (palt (pplus (pchar Char.isDigit)) (pchar (· == '*')))))
            (pseq (pstar (pchar isLenMod)) (pchar isConvChar))))))

/-- Alternative (b): `%@`. -/
def altObjC : Px := pstr ['%', '@']

/-- Alternative (c): `\x7b\w*\x7d` (brace-delimited template token). -/
def altBrace : Px :=
  pseq (pchar (· == '\x7b')) (pseq (pstar (pchar pyWordChar)) (pchar (· == '\x7d')))

/-- Alternative (d): `<[^>]+>` (markup tag). -/
def altTag : Px :=
  pseq (pchar (· == '<')) (pseq (pplus (pchar (· != '>'))) (pchar (· == '>')))

/-- Alternative (e): `\[\/?[^\]]+\]` (BBCode-style pseudo-tag). -/
def altBB : Px :=
  pseq (pchar (· == '['))
    (pseq (popt (pchar (· == '/')))
      (pseq (pplus (pchar (· != ']'))) (pchar (· == ']'))))

/-- Python `\s`, on the modelled alphabet: the six ASCII whitespace
characters. -/
def pySpace (c : Char) : Bool :=
  c == ' ' || c == '\t' || c == '\n' || c == '\r' ||
  c.toNat == 11 || c.toNat == 12

/-- Alternative (f): `https?://\S+` under `re.I` (bare URL). -/
def altURL : Px :=
  pseq (pstrCI ['h', 't', 't', 'p'])
    (pseq (popt (pchar (ciEq 's')))
      (pseq (pstr [':', '/', '/']) (pplus (pchar (fun c => !pySpace c)))))

/-- The whole `_PLACEHOLDER_RE` alternation, in source order. -/
def phPattern : Px :=
  palt altPrintf (palt altObjC (palt altBrace (palt altTag (palt altBB altURL))))

/-- Try to match `_PLACEHOLDER_RE` at the start of `s`; on success return
the matched token and the remainder (the first remainder in backtracking
order, as Python's engine reports). -/
def matchAt (s : Str) : Option (Str × Str) :=
  match phPattern s with
  | [] => none
  | r :: _ => some (s.take (s.length - r.length), r)

/-- `finditer` scan with fuel: at each position try `matchAt`; on a match
emit the token and continue after it, otherwise advance one character.
Every match consumes at least one character (`matchAt_consumes` below),
so fuel `s.length` is enough for the full scan. -/
def finditerAux : Nat → Str → List Str
  | 0, _ => []
  | _ + 1, [] => []
  | fuel + 1, c :: rest =>
    match matchAt (c :: rest) with
    | some (tok, r) => tok :: finditerAux fuel r
    | none => finditerAux fuel rest

/-- `extract_placeholders` (source lines 67-69). -/
def extract_placeholders (text : Str) : List Str := finditerAux text.length text

/-- `validate_placeholders` (source lines 71-80): the source tokens not
contained (as substrings) in the translation, in source order. -/
def validate_placeholders (source translation : Str) : List Str :=
  if (extract_placeholders source).isEmpty then []
  else (extract_placeholders source).filter (fun ph => !pyIn ph translation)

/-- A matcher only ever returns suffixes of its input. -/
def SfxP (p : Px) : Prop := ∀ s r, r ∈ p s → r <:+ s

/-- A matcher that consumes at least one character on success. -/
def ConsP (p : Px) : Prop := ∀ s r, r ∈ p s → r.length < s.length

/-! ### Batch partitioning (`chunked`, source lines 321-324) -/
/-- `chunked` scan with fuel: yield `lst[i:i+n]` for `i = 0, n, 2n, …`.
Each step drops `n ≥ 1` elements, so fuel `lst.length` suffices. -/
def chunkedAux : Nat → List α → Nat → List (List α)
  | 0, _, _ => []
  | _ + 1, [], _ => []
  | fuel + 1, l@(_ :: _), n => l.take n :: chunkedAux fuel (l.drop n) n

/-- `chunked` (source lines 321-324).  Python's `range` raises for a zero
step, so `n = 0` never reaches the scan; all theorems assume `1 ≤ n`. -/
def chunked (lst : List α) (n : Nat) : List (List α) :=
  if n == 0 then [] else chunkedAux lst.length lst n

/-! ### Work-item ids (`tmp_id = f"{id_counter}"`) -/
/-- The character of a decimal digit. -/
def digitChar (d : Nat) : Char := Char.ofNat (48 + d)

/-- Decimal numeral of `n`, with fuel (structural recursion so that the
kernel can evaluate it); fuel `n + 1` always suffices. -/
def decimalAux : Nat → Nat → Str
  | 0, _ => []
  | fuel + 1, n =>
    if n < 10 then [digitChar n]
    else decimalAux fuel (n / 10) ++ [digitChar (n % 10)]

/-- `f"{n}"`: the decimal numeral of `n` as a string. -/
def natToId (n : Nat) : Str := decimalAux (n + 1) n

/-- Numeric value of a digit string (left inverse of `natToId`). -/
def digitsVal (l : Str) : Nat := l.foldl (fun acc c => acc * 10 + (c.toNat - 48)) 0

/-! ### Data model -/
/-- One catalog entry: `msgid` (source text) and `msgstr` (translation).
The Python code mutates only `msgstr`; comments/context metadata are
carried by the external `polib` object and never touched, so they are
not modelled. -/
structure POEntry where
  msgid : Str
  msgstr : Str
deriving DecidableEq, Repr

/-- One work item: `{"id": tmp_id, "text": ..., "lang": ...}`. -/
structure WorkItem where
  id : Str
  text : Str
  lang : Str
deriving DecidableEq, Repr

/-- The `id_map` of `build_work_items`: `tmp_id -> (entry, source_field)`.
Entries are modelled by their index in the catalog list (Python stores an
object reference; the list never grows or shrinks during a run, so the
index identifies the referenced object). -/
abbrev IdMap := List (Str × Nat × String)

/-- Python `id_map[tid]` (raises `KeyError` when absent, modelled by
`none`). -/
def lookupIdMap (m : IdMap) (tid : Str) : Option (Nat × String) :=
  (m.find? (fun x => x.1 == tid)).map (fun x => x.2)

/-! ### Work-item builder (`build_work_items`, source lines 388-449) -/
/-- The `detected_lang` computation (source line 445). -/
def detectLang (text : Str) : Str :=
  if looks_german text && !looks_english text then "de".toList else "en".toList

/-- The per-entry text/field selection of `build_work_items`
(source lines 406-440), for an entry that passed the header skip. -/
def entryChoice (e : POEntry) (source_lang : String) (force : Bool) :
    Option (Str × String) :=
  if force then
    if !e.msgstr.isEmpty then some (e.msgstr, "msgstr")
    else some (e.msgid, "msgid")
  else if source_lang == "en" then
    if !e.msgstr.isEmpty && looks_english e.msgstr then some (e.msgstr, "msgstr")
    else if looks_english e.msgid then some (e.msgid, "msgid")
    else none
  else if source_lang == "de" then some (e.msgid, "msgid")
  else
    if !e.msgstr.isEmpty && looks_english e.msgstr then some (e.msgstr, "msgstr")
    else if looks_german e.msgid then some (e.msgid, "msgid")
    else if !e.msgstr.isEmpty then some (e.msgstr, "msgstr")
    else some (e.msgid, "msgid")

/-- The scan loop of `build_work_items`: `idx` is the position of the
current entry in the catalog, `counter` the `id_counter` so far.
Returns (work_items, id_map, total_entries). -/
def buildGo (source_lang : String) (force : Bool) :
    List POEntry → Nat → Nat → List WorkItem × IdMap × Nat
  | [], _, _ => ([], [], 0)
  | e :: rest, idx, counter =>
    if e.msgid.isEmpty then
      buildGo source_lang force rest (idx + 1) counter
    else
      match entryChoice e source_lang force with
      | none =>
        let r := buildGo source_lang force rest (idx + 1) counter
        (r.1, r.2.1, r.2.2 + 1)
      | some (text, fld) =>
        if text.isEmpty then
          let r := buildGo source_lang force rest (idx + 1) counter
          (r.1, r.2.1, r.2.2 + 1)
        else
          let tid := natToId (counter + 1)
          let r := buildGo source_lang force rest (idx + 1) (counter + 1)
          (⟨tid, text, detectLang text⟩ :: r.1, (tid, idx, fld) :: r.2.1, r.2.2 + 1)

/-- `build_work_items` (source lines 388-449). -/
def build_work_items (po : List POEntry) (source_lang : String) (force : Bool) :
    List WorkItem × IdMap × Nat :=
  buildGo source_lang force po 0 0

/-- The auto-mode selection priority, written as the specification
states it: existing translation if non-empty and English-looking, else
source if German-looking, else existing translation if non-empty, else
source. -/
def autoPriorityText (e : POEntry) : Str :=
  if !e.msgstr.isEmpty && looks_english e.msgstr then e.msgstr
  else if looks_german e.msgid then e.msgid
  else if !e.msgstr.isEmpty then e.msgstr
  else e.msgid

/-! ### Batch translation driver (`translate_po_file`, source lines 452-554)

`call_model` performs network I/O; the driver sees only its observable
behaviour: for each invocation, either a finite id→translation mapping
(a Python dict: ordered pairs with pairwise-distinct keys) or a raised
exception.  It is modelled as an oracle indexed by the number of
`call_model` invocations made so far, so stateful behaviour (a batch
call failing while later per-item calls succeed) is expressible. -/
/-- One element of `placeholder_warnings` (source lines 511-515). -/
structure PhWarning where
  id : Str
  source : Str
  translation : Str
  missing : List Str
deriving DecidableEq, Repr

/-- One element of `failed_items` (source lines 536-539). -/
structure FailedItem where
  id : Str
  text : Str
  error : Str
deriving DecidableEq, Repr

/-- The driver's mutable state.  `translatedIds` records the id handled
by each `translated_count += 1` (source lines 517 and 534), in order;
the Python counter is its length.  `calls` counts `call_model`
invocations. -/
structure DriverState where
  entries : List POEntry
  translatedIds : List Str
  warnings : List PhWarning
  failed : List FailedItem
  calls : Nat
deriving DecidableEq, Repr

/-- The observable behaviour of `call_model`: invocation number and
batch to the returned mapping (as ordered pairs) or the raised
exception's message. -/
abbrev Oracle := Nat → List WorkItem → Except Str (List (Str × Option Str))

/-- `entry_obj.msgstr = trans` for the entry at position `idx`. -/
def writeMsgstr : List POEntry → Nat → Str → List POEntry
  | [], _, _ => []
  | e :: rest, 0, tr => { e with msgstr := tr } :: rest
  | e :: rest, n + 1, tr => e :: writeMsgstr rest n tr

/-- `str(KeyError(tid))`: Python reprs the missing key in quotes. -/
def keyErrorRepr (tid : Str) : Str := '\'' :: (tid ++ ['\''])

/-- The body of one success iteration (source lines 508-517): validate
placeholders of `tr` against `orig`, record a warning if tokens are
missing, write the translation into the entry at `idx`, count the id. -/
def stepState (st : DriverState) (idx : Nat) (tid orig tr : Str) : DriverState :=
  { st with
    entries := writeMsgstr st.entries idx tr,
    warnings :=
      if (validate_placeholders orig tr).isEmpty then st.warnings
      else st.warnings ++ [⟨tid, orig, tr, validate_placeholders orig tr⟩],
    translatedIds := st.translatedIds ++ [tid] }

/-- The response-application loop (source lines 505-517 and 523-534):
process the mapping's pairs in order; skip null values; look up the
entry, validate against `origOf tid`, write, count.  An unknown id
raises `KeyError` (returned as `some tid`), keeping the state mutated so
far — Python's exception does not roll anything back. -/
def applyPairs (idMap : IdMap) (origOf : Str → Str) :
    List (Str × Option Str) → DriverState → DriverState × Option Str
  | [], st => (st, none)
  | (_, none) :: rest, st => applyPairs idMap origOf rest st
  | (tid, some tr) :: rest, st =>
    match lookupIdMap idMap tid with
    | none => (st, some tid)
    | some (idx, _) =>
      applyPairs idMap origOf rest (stepState st idx tid (origOf tid) tr)

/-- `next((it["text"] for it in batch if it["id"] == tid), "")`
(source line 509). -/
def origOfBatch (batch : List WorkItem) (tid : Str) : Str :=
  ((batch.find? (fun it => it.id == tid)).map WorkItem.text).getD []

/-- The per-item fallback body (source lines 520-539): one `call_model`
on the single item; on success apply the mapping validating against
`item.text`; any exception (from the call or from the lookup) appends a
failure record for this item. -/
def processItem (oracle : Oracle) (idMap : IdMap) (item : WorkItem)
    (st : DriverState) : DriverState :=
  match oracle st.calls [item] with
  | Except.error e =>
    { st with calls := st.calls + 1,
              failed := st.failed ++ [⟨item.id, item.text, e⟩] }
  | Except.ok pairs =>
    let st1 := { st with calls := st.calls + 1 }
    match applyPairs idMap (fun _ => item.text) pairs st1 with
    | (st2, none) => st2
    | (st2, some tid) =>
      { st2 with failed := st2.failed ++ [⟨item.id, item.text, keyErrorRepr tid⟩] }

/-- One iteration of the batch loop (source lines 502-539): try the
batch call; on success apply the mapping (validating against the
batch-lookup text); if the call or the application raises, fall back to
one `call_model` per item of the batch. -/
def processBatch (oracle : Oracle) (idMap : IdMap) (st : DriverState)
    (batch : List WorkItem) : DriverState :=
  match oracle st.calls batch with
  | Except.error _ =>
    batch.foldl (fun s it => processItem oracle idMap it s)
      { st with calls := st.calls + 1 }
  | Except.ok pairs =>
    let st1 := { st with calls := st.calls + 1 }
    match applyPairs idMap (origOfBatch batch) pairs st1 with
    | (st2, none) => st2
    | (st2, some _) =>
      batch.foldl (fun s it => processItem oracle idMap it s) st2

/-- The driver loop over all batches (source line 502). -/
def runDriver (oracle : Oracle) (idMap : IdMap) (workItems : List WorkItem)
    (batchSize : Nat) (entries : List POEntry) : DriverState :=
  (chunked workItems batchSize).foldl (processBatch oracle idMap)
    ⟨entries, [], [], [], 0⟩

/-- The summary dict returned by `translate_po_file`
(source lines 547-554); `output_path` is I/O and not modelled. -/
structure RunReport where
  translated : Nat
  total_entries : Nat
  total_to_translate : Nat
  placeholder_warnings : List PhWarning
  failed : List FailedItem
deriving DecidableEq, Repr

/-- The driver state reached by `translate_po_file` (source lines
489-542) on an already-loaded catalog: build the work items, then run
the batch loop.  Credential checks, file load/save and the progress/log
callbacks are I/O and not modelled. -/
def translate_po_file_state (oracle : Oracle) (po : List POEntry)
    (batch_size : Nat) (source_lang : String) (force : Bool) : DriverState :=
  let b := build_work_items po source_lang force
  runDriver oracle b.2.1 b.1 batch_size po

/-- The report returned by `translate_po_file` (source lines 547-554). -/
def translate_po_file (oracle : Oracle) (po : List POEntry)
    (batch_size : Nat) (source_lang : String) (force : Bool) : RunReport :=
  let b := build_work_items po source_lang force
  let st := translate_po_file_state oracle po batch_size source_lang force
  ⟨st.translatedIds.length, b.2.2, b.1.length, st.warnings, st.failed⟩

/-! ### Driver lemmas -/
/-- The ids carried by the non-null pairs of a response, in order. -/
def nonNullKeys (pairs : List (Str × Option Str)) : List Str :=
  (pairs.filter (fun p => p.2.isSome)).map Prod.fst

/-- The well-behavedness of the translation capability assumed by the
specification: a successful response is a mapping (pairwise-distinct
keys, as a Python dict guarantees) whose keys are ids of the items
passed in that call. -/
def WellBehaved (oracle : Oracle) : Prop :=
  ∀ n items pairs, oracle n items = Except.ok pairs →
    (pairs.map Prod.fst).Nodup ∧ ∀ p ∈ pairs, p.1 ∈ items.map WorkItem.id

theorem sfx_pchar (f : Char → Bool) : SfxP (pchar f) := by
  intro s r hr
  match s with
  | [] => simp [pchar] at hr
  | c :: t =>
    simp only [pchar] at hr
    by_cases h : f c
    · simp [h] at hr
      exact hr ▸ List.suffix_cons c t
    · simp [h] at hr

theorem sfx_pemp : SfxP pemp := by
  intro s r hr
  simp [pemp] at hr
  exact hr ▸ List.suffix_refl s

theorem sfx_pseq {p q : Px} (hp : SfxP p) (hq : SfxP q) : SfxP (pseq p q) := by
  intro s r hr
  simp only [pseq, List.mem_flatMap] at hr
  obtain ⟨m, hm, hrm⟩ := hr
  exact (hq m r hrm).trans (hp s m hm)

theorem sfx_palt {p q : Px} (hp : SfxP p) (hq : SfxP q) : SfxP (palt p q) := by
  intro s r hr
  rcases List.mem_append.mp hr with h | h
  · exact hp s r h
  · exact hq s r h

theorem sfx_popt {p : Px} (hp : SfxP p) : SfxP (popt p) := by
  intro s r hr
  rcases List.mem_append.mp hr with h | h
  · exact hp s r h
  · simp at h
    exact h ▸ List.suffix_refl s

theorem sfx_pstarAux {p : Px} (hp : SfxP p) : ∀ n, SfxP (pstarAux p n) := by
  intro n
  induction n with
  | zero =>
    intro s r hr
    simp [pstarAux] at hr
    exact hr ▸ List.suffix_refl s
  | succ n ih =>
    intro s r hr
    simp only [pstarAux] at hr
    rcases List.mem_append.mp hr with h | h
    · simp only [List.mem_flatMap, List.mem_filter] at h
      obtain ⟨m, ⟨hm, _⟩, hrm⟩ := h
      exact (ih m r hrm).trans (hp s m hm)
    · simp at h
      exact h ▸ List.suffix_refl s

theorem sfx_pstar {p : Px} (hp : SfxP p) : SfxP (pstar p) := by
  intro s r hr
  exact sfx_pstarAux hp s.length s r hr

theorem sfx_pplus {p : Px} (hp : SfxP p) : SfxP (pplus p) :=
  sfx_pseq hp (sfx_pstar hp)

theorem sfx_pstr (cs : Str) : SfxP (pstr cs) := by
  induction cs with
  | nil => exact sfx_pemp
  | cons c cs ih => exact sfx_pseq (sfx_pchar _) ih

theorem sfx_pstrCI (cs : Str) : SfxP (pstrCI cs) := by
  induction cs with
  | nil => exact sfx_pemp
  | cons c cs ih => exact sfx_pseq (sfx_pchar _) ih

theorem cons_pchar (f : Char → Bool) : ConsP (pchar f) := by
  intro s r hr
  match s with
  | [] => simp [pchar] at hr
  | c :: t =>
    simp only [pchar] at hr
    by_cases h : f c
    · simp [h] at hr
      simp [hr]
    · simp [h] at hr

theorem cons_pseq_left {p q : Px} (hp : ConsP p) (hq : SfxP q) : ConsP (pseq p q) := by
  intro s r hr
  simp only [pseq, List.mem_flatMap] at hr
  obtain ⟨m, hm, hrm⟩ := hr
  exact Nat.lt_of_le_of_lt (List.IsSuffix.length_le (hq m r hrm)) (hp s m hm)

theorem cons_palt {p q : Px} (hp : ConsP p) (hq : ConsP q) : ConsP (palt p q) := by
  intro s r hr
  rcases List.mem_append.mp hr with h | h
  · exact hp s r h
  · exact hq s r h

theorem cons_pstr (c : Char) (cs : Str) : ConsP (pstr (c :: cs)) :=
  cons_pseq_left (cons_pchar _) (sfx_pstr cs)

theorem cons_pstrCI (c : Char) (cs : Str) : ConsP (pstrCI (c :: cs)) :=
  cons_pseq_left (cons_pchar _) (sfx_pstrCI cs)

theorem sfxPattern : SfxP phPattern := by
  have h1 : SfxP altPrintf :=
    sfx_pseq (sfx_pchar _) (sfx_pseq (sfx_popt (sfx_pseq (sfx_pplus (sfx_pchar _)) (sfx_pchar _)))
      (sfx_pseq (sfx_pstar (sfx_pchar _))
        (sfx_pseq (sfx_popt (sfx_palt (sfx_pplus (sfx_pchar _)) (sfx_pchar _)))
          (sfx_pseq (sfx_popt (sfx_pseq (sfx_pchar _) (sfx_palt (sfx_pplus (sfx_pchar _)) (sfx_pchar _))))
            (sfx_pseq (sfx_pstar (sfx_pchar _)) (sfx_pchar _))))))
  have h2 : SfxP altObjC := sfx_pstr _
  have h3 : SfxP altBrace := sfx_pseq (sfx_pchar _) (sfx_pseq (sfx_pstar (sfx_pchar _)) (sfx_pchar _))
  have h4 : SfxP altTag := sfx_pseq (sfx_pchar _) (sfx_pseq (sfx_pplus (sfx_pchar _)) (sfx_pchar _))
  have h5 : SfxP altBB :=
    sfx_pseq (sfx_pchar _) (sfx_pseq (sfx_popt (sfx_pchar _))
      (sfx_pseq (sfx_pplus (sfx_pchar _)) (sfx_pchar _)))
  have h6 : SfxP altURL :=
    sfx_pseq (sfx_pstrCI _) (sfx_pseq (sfx_popt (sfx_pchar _))
      (sfx_pseq (sfx_pstr _) (sfx_pplus (sfx_pchar _))))
  exact sfx_palt h1 (sfx_palt h2 (sfx_palt h3 (sfx_palt h4 (sfx_palt h5 h6))))

theorem consPattern : ConsP phPattern := by
  have h1 : ConsP altPrintf :=
    cons_pseq_left (cons_pchar _) (sfx_pseq (sfx_popt (sfx_pseq (sfx_pplus (sfx_pchar _)) (sfx_pchar _)))
      (sfx_pseq (sfx_pstar (sfx_pchar _))
        (sfx_pseq (sfx_popt (sfx_palt (sfx_pplus (sfx_pchar _)) (sfx_pchar _)))
          (sfx_pseq (sfx_popt (sfx_pseq (sfx_pchar _) (sfx_palt (sfx_pplus (sfx_pchar _)) (sfx_pchar _))))
            (sfx_pseq (sfx_pstar (sfx_pchar _)) (sfx_pchar _))))))
  have h2 : ConsP altObjC := cons_pstr '%' ['@']
  have h3 : ConsP altBrace := cons_pseq_left (cons_pchar _) (sfx_pseq (sfx_pstar (sfx_pchar _)) (sfx_pchar _))
  have h4 : ConsP altTag := cons_pseq_left (cons_pchar _) (sfx_pseq (sfx_pplus (sfx_pchar _)) (sfx_pchar _))
  have h5 : ConsP altBB :=
    cons_pseq_left (cons_pchar _) (sfx_pseq (sfx_popt (sfx_pchar _))
      (sfx_pseq (sfx_pplus (sfx_pchar _)) (sfx_pchar _)))
  have h6 : ConsP altURL :=
    cons_pseq_left (cons_pstrCI 'h' ['t', 't', 'p'])
      (sfx_pseq (sfx_popt (sfx_pchar _))
        (sfx_pseq (sfx_pstr _) (sfx_pplus (sfx_pchar _))))
  exact cons_palt h1 (cons_palt h2 (cons_palt h3 (cons_palt h4 (cons_palt h5 h6))))

/-- A successful `matchAt` splits the input into a nonempty token and the
remainder. -/
theorem matchAt_consumes {s tok r : Str} (h : matchAt s = some (tok, r)) :
    tok ++ r = s ∧ tok ≠ [] := by
  unfold matchAt at h
  cases hp : phPattern s with
  | nil => rw [hp] at h; exact absurd h (by simp)
  | cons r0 rs =>
    rw [hp] at h
    simp only [Option.some.injEq, Prod.mk.injEq] at h
    obtain ⟨htok, hr⟩ := h
    rw [hr] at htok
    have hmem : r ∈ phPattern s := by
      rw [hp, ← hr]
      exact List.mem_cons_self _ _
    obtain ⟨t, ht⟩ := sfxPattern s r hmem
    have hlen : r.length < s.length := consPattern s r hmem
    have hteq : s.length - r.length = t.length := by
      have := congrArg List.length ht
      simp at this
      omega
    have htake : s.take (s.length - r.length) = t := by
      rw [hteq, ← ht]
      exact List.take_left t r
    have htok2 : tok = t := by rw [← htok, htake]
    have hne : t ≠ [] := by
      intro hnil
      rw [hnil] at hteq
      simp at hteq
      omega
    exact ⟨by rw [htok2, ht], by rw [htok2]; exact hne⟩

theorem strInCons {t rest : Str} (c : Char) (h : t <:+: rest) : t <:+: c :: rest := by
  obtain ⟨u, v, huv⟩ := h
  exact ⟨c :: u, v, by simp [huv]⟩

theorem strInOfSplit {t r s tok : Str} (h : t <:+: r) (hs : tok ++ r = s) : t <:+: s := by
  obtain ⟨u, v, huv⟩ := h
  exact ⟨tok ++ u, v, by rw [← hs, ← huv]; simp [List.append_assoc]⟩

/-- Every token returned by the scanner is a contiguous substring of the
scanned text. -/
theorem mem_finditerAux_substr :
    ∀ fuel s t, t ∈ finditerAux fuel s → t <:+: s := by
  intro fuel
  induction fuel with
  | zero => intro s t ht; simp [finditerAux] at ht
  | succ n ih =>
    intro s t ht
    match s with
    | [] => simp [finditerAux] at ht
    | c :: rest =>
      simp only [finditerAux] at ht
      cases hm : matchAt (c :: rest) with
      | none =>
        rw [hm] at ht
        exact strInCons c (ih rest t ht)
      | some pr =>
        obtain ⟨tok, r⟩ := pr
        rw [hm] at ht
        obtain ⟨hsplit, -⟩ := matchAt_consumes hm
        rcases List.mem_cons.mp ht with h | h
        · exact h ▸ ⟨[], r, by simp [hsplit]⟩
        · exact strInOfSplit (ih r t h) hsplit

theorem mem_extract_substr {text t : Str} (h : t ∈ extract_placeholders text) :
    t <:+: text :=
  mem_finditerAux_substr text.length text t h

theorem pyIn_iff {needle hay : Str} : pyIn needle hay = true ↔ needle <:+: hay := by
  simp [pyIn]

/-- **C2.** `validate_placeholders` records a token extracted from the
source as missing exactly when it does not occur as a literal substring
of the translation; the missing list is a sublist of the extracted list
(so it follows source-occurrence order); and a token that is present in
the translation is never flagged, regardless of how often it was
extracted from the source (presence check, not multiset-count check). -/
theorem claim_C2_validator_presence (src tr : Str) :
    (∀ ph, ph ∈ validate_placeholders src tr ↔
      (ph ∈ extract_placeholders src ∧ ¬ ph <:+: tr)) ∧
    List.Sublist (validate_placeholders src tr) (extract_placeholders src) ∧
    (∀ ph, ph ∈ extract_placeholders src → ph <:+: tr →
      ph ∉ validate_placeholders src tr) := by
  have hiff : ∀ ph, ph ∈ validate_placeholders src tr ↔
      (ph ∈ extract_placeholders src ∧ ¬ ph <:+: tr) := by
    intro ph
    by_cases h : (extract_placeholders src).isEmpty
    · rw [List.isEmpty_iff] at h
      simp [validate_placeholders, h]
    · rw [validate_placeholders, if_neg h]
      rw [List.mem_filter]
      constructor
      · rintro ⟨hm, hb⟩
        refine ⟨hm, fun hin => ?_⟩
        rw [Bool.not_eq_true'] at hb
        rw [pyIn_iff.mpr hin] at hb
        exact absurd hb (by simp)
      · rintro ⟨hm, hin⟩
        refine ⟨hm, ?_⟩
        rw [Bool.not_eq_true']
        by_cases hpy : pyIn ph tr = true
        · exact absurd (pyIn_iff.mp hpy) hin
        · simpa using hpy
  refine ⟨hiff, ?_, ?_⟩
  · by_cases h : (extract_placeholders src).isEmpty
    · rw [validate_placeholders, if_pos h]
      exact List.nil_sublist _
    · rw [validate_placeholders, if_neg h]
      exact List.filter_sublist _
  · intro ph hmem hin hbad
    exact ((hiff ph).mp hbad).2 hin

/-- **C2 witness.** The source holds `%s` twice, the translation once:
the token is present, hence never flagged. -/
theorem claim_C2_validator_presence_witness :
    "%s".toList ∉ validate_placeholders "Select %s of %s".toList "Velg %s".toList :=
  (claim_C2_validator_presence _ _).2.2 _ (by decide) (by decide)

/-- **C3.** A translation identical to its source is never missing a
token, and a source with no extractable tokens validates against any
translation. -/
theorem claim_C3_validator_identity :
    (∀ s : Str, validate_placeholders s s = []) ∧
    (∀ s t : Str, extract_placeholders s = [] → validate_placeholders s t = []) := by
  constructor
  · intro s
    by_cases h : (extract_placeholders s).isEmpty
    · rw [validate_placeholders, if_pos h]
    · rw [validate_placeholders, if_neg h]
      rw [List.filter_eq_nil_iff]
      intro ph hph
      rw [pyIn_iff.mpr (mem_extract_substr hph)]
      simp
  · intro s t h
    rw [validate_placeholders, h]
    simp

/-- **C3 witness.** Concrete instances of both parts. -/
theorem claim_C3_validator_identity_witness :
    validate_placeholders "Hello %s".toList "Hello %s".toList = [] ∧
    validate_placeholders "no tokens here".toList "anything".toList = [] :=
  ⟨claim_C3_validator_identity.1 _,
   claim_C3_validator_identity.2 _ _ (by decide)⟩

theorem chunkedAux_nil (fuel n : Nat) : chunkedAux fuel ([] : List α) n = [] := by
  cases fuel <;> rfl

theorem chunkedAux_flatten :
    ∀ (fuel : Nat) (l : List α) (m : Nat), l.length ≤ fuel →
      (chunkedAux fuel l (m + 1)).flatten = l := by
  intro fuel
  induction fuel with
  | zero =>
    intro l m hl
    rw [List.eq_nil_of_length_eq_zero (Nat.le_zero.mp hl)]
    rfl
  | succ n ih =>
    intro l m hl
    match l with
    | [] => rfl
    | c :: rest =>
      rw [chunkedAux, List.flatten_cons, ih _ m ?_]
      · exact List.take_append_drop _ _
      · rw [List.length_drop]
        have : (c :: rest).length = rest.length + 1 := List.length_cons c rest
        omega

theorem chunkedAux_le :
    ∀ (fuel : Nat) (l : List α) (m : Nat),
      ∀ c ∈ chunkedAux fuel l (m + 1), c.length ≤ m + 1 := by
  intro fuel
  induction fuel with
  | zero => intro l m c hc; simp [chunkedAux] at hc
  | succ n ih =>
    intro l m c hc
    match l with
    | [] => simp [chunkedAux] at hc
    | x :: rest =>
      rw [chunkedAux] at hc
      rcases List.mem_cons.mp hc with h | h
      · rw [h, List.length_take]
        omega
      · exact ih _ m c h

theorem chunkedAux_dropLast :
    ∀ (fuel : Nat) (l : List α) (m : Nat),
      ∀ c ∈ (chunkedAux fuel l (m + 1)).dropLast, c.length = m + 1 := by
  intro fuel
  induction fuel with
  | zero => intro l m c hc; simp [chunkedAux] at hc
  | succ n ih =>
    intro l m c hc
    match l with
    | [] => simp [chunkedAux] at hc
    | x :: rest =>
      rw [chunkedAux] at hc
      cases hr : chunkedAux n ((x :: rest).drop (m + 1)) (m + 1) with
      | nil => rw [hr] at hc; simp at hc
      | cons r rs =>
        rw [hr, List.dropLast_cons₂] at hc
        rcases List.mem_cons.mp hc with h | h
        · have hdrop : (x :: rest).drop (m + 1) ≠ [] := by
            intro hnil
            rw [hnil, chunkedAux_nil] at hr
            exact absurd hr (by simp)
          have hlen : m + 1 ≤ (x :: rest).length := by
            rcases Nat.lt_or_ge (x :: rest).length (m + 1) with hlt | hge
            · exact absurd (List.eq_nil_of_length_eq_zero
                (by rw [List.length_drop]; omega)) hdrop
            · exact hge
          rw [h, List.length_take]
          omega
        · exact ih _ m c (hr ▸ h)

theorem chunkedAux_sublist :
    ∀ (fuel : Nat) (l : List α) (m : Nat),
      ∀ c ∈ chunkedAux fuel l (m + 1), List.Sublist c l := by
  intro fuel
  induction fuel with
  | zero => intro l m c hc; simp [chunkedAux] at hc
  | succ n ih =>
    intro l m c hc
    match l with
    | [] => simp [chunkedAux] at hc
    | x :: rest =>
      rw [chunkedAux] at hc
      rcases List.mem_cons.mp hc with h | h
      · exact h ▸ List.take_sublist _ _
      · exact (ih _ m c h).trans (List.drop_sublist _ _)

theorem chunked_flatten (l : List α) (m : Nat) :
    (chunked l (m + 1)).flatten = l := by
  rw [chunked, if_neg (by simp)]
  exact chunkedAux_flatten _ _ _ le_rfl

/-- **C4.** For every list and `batchSize ≥ 1`, the batches are contiguous
and in order (their concatenation is the original list, so every item is
covered exactly once), every batch has size at most `batchSize`, every
batch except possibly the last has size exactly `batchSize`, and 45 items
with `batchSize = 20` give batches of sizes 20, 20, 5. -/
theorem claim_C4_batch_partition {α : Type} (l : List α) (n : Nat) (h : 1 ≤ n) :
    (chunked l n).flatten = l ∧
    (∀ c ∈ chunked l n, c.length ≤ n) ∧
    (∀ c ∈ (chunked l n).dropLast, c.length = n) ∧
    (chunked (List.range 45) 20).map List.length = [20, 20, 5] := by
  obtain ⟨m, rfl⟩ : ∃ m, n = m + 1 := ⟨n - 1, by omega⟩
  refine ⟨chunked_flatten l m, ?_, ?_, by decide⟩
  · intro c hc
    rw [chunked, if_neg (by simp)] at hc
    exact chunkedAux_le _ _ _ c hc
  · intro c hc
    rw [chunked, if_neg (by simp)] at hc
    exact chunkedAux_dropLast _ _ _ c hc

/-- **C4 witness.** The 45-item, batch-size-20 partition reassembles the
original list. -/
theorem claim_C4_batch_partition_witness :
    (chunked (List.range 45) 20).flatten = List.range 45 :=
  (claim_C4_batch_partition (List.range 45) 20 (by decide)).1

/-- **C9.** The English heuristic accepts exactly the non-empty,
all-ASCII strings containing an `_EN_HINTS` word (both conditions
required — ASCII alone never suffices); the German heuristic accepts
exactly the non-empty strings containing a German diacritic (sufficient
on its own, short-circuiting the word search) or a `_DE_HINTS` word; the
empty string matches neither language. -/
theorem claim_C9_heuristics (s : Str) :
    (looks_english s = true ↔
      (s ≠ [] ∧ (∀ c ∈ s, c.toNat < 128) ∧
        ∃ w ∈ _EN_HINTS, ∃ i, i < s.length ∧ wordOccursAt w s i = true)) ∧
    (looks_german s = true ↔
      (s ≠ [] ∧ ((∃ c ∈ s, c ∈ germanChars) ∨
        ∃ w ∈ _DE_HINTS, ∃ i, i < s.length ∧ wordOccursAt w s i = true))) ∧
    ((∃ c ∈ s, c ∈ germanChars) → s ≠ [] → looks_german s = true) ∧
    looks_english ([] : Str) = false ∧ looks_german ([] : Str) = false := by
  have hsearch : ∀ (words : List Str), searchWordsCI words s = true ↔
      ∃ w ∈ words, ∃ i, i < s.length ∧ wordOccursAt w s i = true := by
    intro words
    rw [searchWordsCI, List.any_eq_true]
    constructor
    · rintro ⟨i, hi, hw⟩
      rw [List.any_eq_true] at hw
      obtain ⟨w, hwmem, hocc⟩ := hw
      exact ⟨w, hwmem, i, List.mem_range.mp hi, hocc⟩
    · rintro ⟨w, hwmem, i, hi, hocc⟩
      exact ⟨i, List.mem_range.mpr hi, List.any_eq_true.mpr ⟨w, hwmem, hocc⟩⟩
  have hger : (s.any (fun c => decide (c ∈ germanChars))) = true ↔
      ∃ c ∈ s, c ∈ germanChars := by
    rw [List.any_eq_true]
    simp
  refine ⟨?_, ?_, ?_, rfl, rfl⟩
  · rw [looks_english]
    by_cases he : s.isEmpty
    · rw [if_pos he, List.isEmpty_iff.mp he]
      simp
    · rw [if_neg he]
      rw [Bool.and_eq_true_iff, hsearch]
      have hascii : asciiish s = true ↔ ∀ c ∈ s, c.toNat < 128 := by
        rw [asciiish, List.all_eq_true]
        simp
      rw [hascii]
      have hne : s ≠ [] := fun h => he (by rw [h]; rfl)
      tauto
  · rw [looks_german]
    by_cases he : s.isEmpty
    · rw [if_pos he, List.isEmpty_iff.mp he]
      simp
    · rw [if_neg he]
      have hne : s ≠ [] := fun h => he (by rw [h]; rfl)
      by_cases hg : s.any (fun c => decide (c ∈ germanChars)) = true
      · rw [if_pos hg]
        simp only [true_iff]
        exact ⟨hne, Or.inl (hger.mp hg)⟩
      · rw [if_neg hg]
        rw [hsearch]
        have hnex : ¬ ∃ c ∈ s, c ∈ germanChars := fun h => hg (hger.mpr h)
        constructor
        · intro h
          exact ⟨hne, Or.inr h⟩
        · rintro ⟨-, h | h⟩
          · exact absurd h hnex
          · exact h
  · intro hex hne
    rw [looks_german]
    rw [if_neg (by simp [hne])]
    rw [if_pos (hger.mpr hex)]

/-- **C9 witness.** `"Save Settings"` is classified English via the hint
word `save`; `"für"` is classified German via its diacritic alone. -/
theorem claim_C9_heuristics_witness :
    looks_english "Save Settings".toList = true ∧
    looks_german "für".toList = true :=
  ⟨(claim_C9_heuristics _).1.mpr
      ⟨by decide, by decide, "save".toList, by decide, 0, by decide, by decide⟩,
   (claim_C9_heuristics _).2.2.1 ⟨'ü', by decide, by decide⟩ (by decide)⟩

theorem digitChar_toNat {d : Nat} (h : d < 10) : (digitChar d).toNat = 48 + d := by
  interval_cases d <;> decide

theorem digitsVal_decimalAux :
    ∀ (fuel n : Nat), n < fuel → digitsVal (decimalAux fuel n) = n := by
  intro fuel
  induction fuel with
  | zero => intro n h; omega
  | succ f ih =>
    intro n h
    rw [decimalAux]
    by_cases h10 : n < 10
    · rw [if_pos h10]
      simp [digitsVal, List.foldl, digitChar_toNat h10]
    · rw [if_neg h10]
      have hlt : n / 10 < f := by
        have := Nat.div_lt_self (by omega : 0 < n) (by omega : 1 < 10)
        omega
      have hmod : n % 10 < 10 := Nat.mod_lt _ (by omega)
      unfold digitsVal
      rw [List.foldl_append]
      have hval := ih (n / 10) hlt
      unfold digitsVal at hval
      rw [hval]
      simp [List.foldl, digitChar_toNat hmod]
      omega

theorem digitsVal_natToId (n : Nat) : digitsVal (natToId n) = n :=
  digitsVal_decimalAux (n + 1) n (Nat.lt_succ_self n)

theorem natToId_injective : Function.Injective natToId := by
  intro a b h
  have : digitsVal (natToId a) = digitsVal (natToId b) := by rw [h]
  rwa [digitsVal_natToId, digitsVal_natToId] at this

/-- Generic builder characterisation: if, for every entry with a
non-empty `msgid`, the choice function yields `choice e` (non-empty),
the builder emits exactly one work item per such entry, carrying
`choice e` as its text, in catalog order. -/
theorem buildGo_texts (source_lang : String) (force : Bool) (choice : POEntry → Str)
    (hch : ∀ e : POEntry, ¬e.msgid.isEmpty = true →
      ∃ f, entryChoice e source_lang force = some (choice e, f) ∧ ¬(choice e).isEmpty = true) :
    ∀ (po : List POEntry) (idx counter : Nat),
      ((buildGo source_lang force po idx counter).1.map WorkItem.text) =
        (po.filter (fun e => !e.msgid.isEmpty)).map choice := by
  intro po
  induction po with
  | nil => intro idx counter; rfl
  | cons e rest ih =>
    intro idx counter
    by_cases hid : e.msgid.isEmpty
    · rw [buildGo, if_pos hid]
      rw [List.filter_cons_of_neg (by simp [hid])]
      exact ih _ _
    · obtain ⟨f, hf, hne⟩ := hch e hid
      rw [buildGo, if_neg hid, hf]
      simp only at *
      rw [if_neg hne]
      rw [List.filter_cons_of_pos (by simp [hid])]
      simp only [List.map_cons, List.map]
      rw [ih _ _]

/-- **C5.** With `force = true`, `build_work_items` yields exactly one
work item per entry with non-empty source text, whose text is the
existing translation field when non-empty and the source field
otherwise — for every catalog and every source-language mode, with no
reference to the language heuristics. -/
theorem claim_C5_force_bypass (po : List POEntry) (source_lang : String) :
    ((build_work_items po source_lang true).1.map WorkItem.text) =
      (po.filter (fun e => !e.msgid.isEmpty)).map
        (fun e => if !e.msgstr.isEmpty then e.msgstr else e.msgid) ∧
    (build_work_items po source_lang true).1.length =
      (po.filter (fun e => !e.msgid.isEmpty)).length := by
  have h := buildGo_texts source_lang true
      (fun e => if !e.msgstr.isEmpty then e.msgstr else e.msgid) ?_ po 0 0
  · refine ⟨h, ?_⟩
    have := congrArg List.length h
    simpa using this
  · intro e hid
    by_cases hstr : e.msgstr.isEmpty
    · refine ⟨"msgid", ?_, ?_⟩
      · simp [entryChoice, hstr]
      · simp [hstr, hid]
    · refine ⟨"msgstr", ?_, ?_⟩
      · simp [entryChoice, hstr]
      · simp [hstr]

/-- **C6.** In `auto` mode without `force`, `build_work_items` chooses
each entry's text by exactly the specified four-step priority, and every
entry with non-empty source text yields exactly one work item. -/
theorem claim_C6_auto_priority (po : List POEntry) :
    ((build_work_items po "auto" false).1.map WorkItem.text) =
      (po.filter (fun e => !e.msgid.isEmpty)).map autoPriorityText ∧
    (build_work_items po "auto" false).1.length =
      (po.filter (fun e => !e.msgid.isEmpty)).length := by
  have h := buildGo_texts "auto" false autoPriorityText ?_ po 0 0
  · refine ⟨h, ?_⟩
    have := congrArg List.length h
    simpa using this
  · intro e hid
    by_cases h1 : !e.msgstr.isEmpty && looks_english e.msgstr
    · obtain ⟨h1a, -⟩ := Bool.and_eq_true_iff.mp h1
      refine ⟨"msgstr", ?_, ?_⟩
      · simp [entryChoice, autoPriorityText, h1]
      · simp only [autoPriorityText, h1, if_true]
        simpa using h1a
    · by_cases h2 : looks_german e.msgid
      · refine ⟨"msgid", ?_, ?_⟩
        · simp [entryChoice, autoPriorityText, h1, h2]
        · simp [autoPriorityText, h1, h2, hid]
      · by_cases h3 : e.msgstr.isEmpty
        · refine ⟨"msgid", ?_, ?_⟩
          · simp [entryChoice, autoPriorityText, h1, h2, h3]
          · simp [autoPriorityText, h1, h2, h3, hid]
        · refine ⟨"msgstr", ?_, ?_⟩
          · simp [entryChoice, autoPriorityText, h1, h2, h3]
          · simp [autoPriorityText, h1, h2, h3]

theorem nonNullKeys_cons_none (tid : Str) (rest : List (Str × Option Str)) :
    nonNullKeys ((tid, none) :: rest) = nonNullKeys rest := by
  simp [nonNullKeys]

theorem nonNullKeys_cons_some (tid tr : Str) (rest : List (Str × Option Str)) :
    nonNullKeys ((tid, some tr) :: rest) = tid :: nonNullKeys rest := by
  simp [nonNullKeys]

theorem mem_nonNullKeys {a : Str} {pairs : List (Str × Option Str)} :
    a ∈ nonNullKeys pairs ↔ ∃ tr, (a, some tr) ∈ pairs := by
  simp only [nonNullKeys, List.mem_map, List.mem_filter]
  constructor
  · rintro ⟨⟨t, v⟩, ⟨hmem, hsome⟩, rfl⟩
    obtain ⟨tr, rfl⟩ := Option.isSome_iff_exists.mp hsome
    exact ⟨tr, hmem⟩
  · rintro ⟨tr, hmem⟩
    exact ⟨(a, some tr), ⟨hmem, rfl⟩, rfl⟩

theorem nonNullKeys_sublist_keys (pairs : List (Str × Option Str)) :
    List.Sublist (nonNullKeys pairs) (pairs.map Prod.fst) :=
  List.Sublist.map Prod.fst (List.filter_sublist pairs)

theorem writeMsgstr_length (es : List POEntry) (idx : Nat) (tr : Str) :
    (writeMsgstr es idx tr).length = es.length := by
  induction es generalizing idx with
  | nil => rfl
  | cons e rest ih =>
    cases idx with
    | zero => rfl
    | succ n => simp [writeMsgstr, ih]

theorem writeMsgstr_getElem?_ne (es : List POEntry) (idx i : Nat) (tr : Str)
    (h : idx ≠ i) : (writeMsgstr es idx tr)[i]? = es[i]? := by
  induction es generalizing idx i with
  | nil => rfl
  | cons e rest ih =>
    cases idx with
    | zero =>
      cases i with
      | zero => exact absurd rfl h
      | succ j => simp [writeMsgstr]
    | succ n =>
      cases i with
      | zero => simp [writeMsgstr]
      | succ j => simpa [writeMsgstr] using ih n j (by omega)

theorem writeMsgstr_getElem?_eq (es : List POEntry) (idx : Nat) (tr : Str)
    (h : idx < es.length) :
    ∃ e, es[idx]? = some e ∧
      (writeMsgstr es idx tr)[idx]? = some { e with msgstr := tr } := by
  induction es generalizing idx with
  | nil => simp at h
  | cons e rest ih =>
    cases idx with
    | zero => exact ⟨e, by simp, by simp [writeMsgstr]⟩
    | succ n =>
      obtain ⟨e', h1, h2⟩ := ih n (by simp at h; omega)
      exact ⟨e', by simpa using h1, by simpa [writeMsgstr] using h2⟩

theorem lookup_mem {m : IdMap} {tid : Str} {i : Nat} {fld : String}
    (h : lookupIdMap m tid = some (i, fld)) : (tid, i, fld) ∈ m := by
  unfold lookupIdMap at h
  cases hf : m.find? (fun x => x.1 == tid) with
  | none => rw [hf] at h; exact absurd h (by simp)
  | some x =>
    rw [hf] at h
    simp only [Option.map_some'] at h
    have hx1 : x.1 = tid := by
      have := List.find?_some hf
      exact eq_of_beq this
    have hxm := List.mem_of_find?_eq_some hf
    have hx : x = (tid, i, fld) := by
      obtain ⟨a, b, c⟩ := x
      simp only at hx1
      simp only [Option.some.injEq] at h
      simp [hx1, ← h]
    exact hx ▸ hxm

theorem lookup_isSome_of_mem_keys {m : IdMap} {tid : Str}
    (h : tid ∈ m.map Prod.fst) : (lookupIdMap m tid).isSome = true := by
  obtain ⟨x, hxm, hx1⟩ := List.mem_map.mp h
  unfold lookupIdMap
  rw [Option.isSome_map']
  exact List.find?_isSome.mpr ⟨x, hxm, by rw [hx1]; exact beq_self_eq_true tid⟩

theorem applyPairs_shape (m : IdMap) (o : Str → Str) :
    ∀ (pairs : List (Str × Option Str)) (st : DriverState),
      ∃ T W,
        (applyPairs m o pairs st).1.translatedIds = st.translatedIds ++ T ∧
        List.Sublist T (nonNullKeys pairs) ∧
        (applyPairs m o pairs st).1.warnings = st.warnings ++ W ∧
        (applyPairs m o pairs st).1.failed = st.failed ∧
        (applyPairs m o pairs st).1.calls = st.calls ∧
        (applyPairs m o pairs st).1.entries.length = st.entries.length := by
  intro pairs
  induction pairs with
  | nil =>
    intro st
    exact ⟨[], [], by simp [applyPairs], by simp, by simp [applyPairs], rfl, rfl, rfl⟩
  | cons p rest ih =>
    intro st
    obtain ⟨tid, v⟩ := p
    cases v with
    | none =>
      obtain ⟨T, W, h1, h2, h3, h4, h5, h6⟩ := ih st
      exact ⟨T, W, h1, by rw [nonNullKeys_cons_none]; exact h2, h3, h4, h5, h6⟩
    | some tr =>
      cases hl : lookupIdMap m tid with
      | none =>
        refine ⟨[], [], ?_, ?_, ?_, ?_, ?_, ?_⟩ <;>
          simp [applyPairs, hl, nonNullKeys_cons_some]
      | some pr =>
        obtain ⟨idx, fld⟩ := pr
        obtain ⟨T, W, h1, h2, h3, h4, h5, h6⟩ := ih (stepState st idx tid (o tid) tr)
        have happ : applyPairs m o ((tid, some tr) :: rest) st =
            applyPairs m o rest (stepState st idx tid (o tid) tr) := by
          simp [applyPairs, hl]
        rw [happ]
        refine ⟨tid :: T,
          (if (validate_placeholders (o tid) tr).isEmpty then []
           else [⟨tid, o tid, tr, validate_placeholders (o tid) tr⟩]) ++ W,
          ?_, ?_, ?_, ?_, ?_, ?_⟩
        · rw [h1]
          simp [stepState]
        · rw [nonNullKeys_cons_some]
          exact List.Sublist.cons₂ tid h2
        · rw [h3]
          by_cases hmiss : (validate_placeholders (o tid) tr).isEmpty
          · simp [stepState, hmiss]
          · simp [stepState, hmiss]
        · rw [h4]; simp [stepState]
        · rw [h5]; simp [stepState]
        · rw [h6]
          simp [stepState, writeMsgstr_length]

theorem applyPairs_resolved (m : IdMap) (o : Str → Str) :
    ∀ (pairs : List (Str × Option Str)) (st : DriverState),
      (∀ p ∈ pairs, p.2.isSome = true → (lookupIdMap m p.1).isSome = true) →
      (applyPairs m o pairs st).2 = none ∧
      (applyPairs m o pairs st).1.translatedIds =
        st.translatedIds ++ nonNullKeys pairs := by
  intro pairs
  induction pairs with
  | nil => intro st _; exact ⟨rfl, by simp [applyPairs, nonNullKeys]⟩
  | cons p rest ih =>
    intro st hres
    obtain ⟨tid, v⟩ := p
    cases v with
    | none =>
      have := ih st (fun p hp => hres p (List.mem_cons_of_mem _ hp))
      exact ⟨this.1, by rw [nonNullKeys_cons_none]; exact this.2⟩
    | some tr =>
      have hsome : (lookupIdMap m tid).isSome = true :=
        hres (tid, some tr) (List.mem_cons_self _ _) rfl
      cases hl : lookupIdMap m tid with
      | none => rw [hl] at hsome; exact absurd hsome (by simp)
      | some pr =>
        obtain ⟨idx, fld⟩ := pr
        have happ : applyPairs m o ((tid, some tr) :: rest) st =
            applyPairs m o rest (stepState st idx tid (o tid) tr) := by
          simp [applyPairs, hl]
        rw [happ]
        have := ih (stepState st idx tid (o tid) tr)
          (fun p hp => hres p (List.mem_cons_of_mem _ hp))
        refine ⟨this.1, ?_⟩
        rw [this.2, nonNullKeys_cons_some]
        simp [stepState]

theorem applyPairs_untouched (m : IdMap) (o : Str → Str) :
    ∀ (pairs : List (Str × Option Str)) (st : DriverState) (i : Nat),
      (∀ tid tr, (tid, some tr) ∈ pairs → ∀ fld, lookupIdMap m tid ≠ some (i, fld)) →
      (applyPairs m o pairs st).1.entries[i]? = st.entries[i]? := by
  intro pairs
  induction pairs with
  | nil => intro st i _; rfl
  | cons p rest ih =>
    intro st i hno
    obtain ⟨tid, v⟩ := p
    cases v with
    | none => exact ih st i (fun t tr h => hno t tr (List.mem_cons_of_mem _ h))
    | some tr =>
      cases hl : lookupIdMap m tid with
      | none =>
        have : applyPairs m o ((tid, some tr) :: rest) st = (st, some tid) := by
          simp [applyPairs, hl]
        rw [this]
      | some pr =>
        obtain ⟨idx, fld⟩ := pr
        have hne : idx ≠ i := by
          intro hcon
          exact hno tid tr (List.mem_cons_self _ _) fld (by rw [hl, hcon])
        have happ : applyPairs m o ((tid, some tr) :: rest) st =
            applyPairs m o rest (stepState st idx tid (o tid) tr) := by
          simp [applyPairs, hl]
        rw [happ]
        rw [ih _ i (fun t tr' h => hno t tr' (List.mem_cons_of_mem _ h))]
        simp [stepState]
        exact writeMsgstr_getElem?_ne _ _ _ _ hne

theorem applyPairs_write (m : IdMap) (o : Str → Str)
    (hinj : ∀ x ∈ m, ∀ y ∈ m, x.2.1 = y.2.1 → x.1 = y.1) :
    ∀ (pairs : List (Str × Option Str)) (st : DriverState) (tid tr : Str)
      (i : Nat) (fld : String),
      (tid, some tr) ∈ pairs →
      lookupIdMap m tid = some (i, fld) →
      (pairs.map Prod.fst).Nodup →
      (∀ p ∈ pairs, p.2.isSome = true → (lookupIdMap m p.1).isSome = true) →
      i < st.entries.length →
      ((applyPairs m o pairs st).1.entries[i]?).map POEntry.msgstr = some tr ∧
      ((applyPairs m o pairs st).1.entries[i]?).map POEntry.msgid =
        (st.entries[i]?).map POEntry.msgid ∧
      tid ∈ (applyPairs m o pairs st).1.translatedIds := by
  intro pairs
  induction pairs with
  | nil => intro st tid tr i fld hmem; simp at hmem
  | cons p rest ih =>
    intro st tid tr i fld hmem hl hnd hres hi
    obtain ⟨tid', v⟩ := p
    cases v with
    | none =>
      have hmem' : (tid, some tr) ∈ rest := by
        rcases List.mem_cons.mp hmem with h | h
        · exact absurd h (by simp)
        · exact h
      exact ih st tid tr i fld hmem' hl (by simpa using hnd.of_cons)
        (fun p hp => hres p (List.mem_cons_of_mem _ hp)) hi
    | some tr' =>
      have hsome : (lookupIdMap m tid').isSome = true :=
        hres (tid', some tr') (List.mem_cons_self _ _) rfl
      cases hl' : lookupIdMap m tid' with
      | none => rw [hl'] at hsome; exact absurd hsome (by simp)
      | some pr =>
        obtain ⟨idx', fld'⟩ := pr
        have happ : applyPairs m o ((tid', some tr') :: rest) st =
            applyPairs m o rest (stepState st idx' tid' (o tid') tr') := by
          simp [applyPairs, hl']
        rw [happ]
        rcases List.mem_cons.mp hmem with hhead | hrest
        · -- this pair is the written one
          have htid : tid' = tid := congrArg Prod.fst hhead.symm
          have htr : tr' = tr := by
            have h0 := congrArg Prod.snd hhead.symm
            simpa using h0
          have hidx : idx' = i := by
            rw [htid] at hl'
            rw [hl] at hl'
            exact (congrArg Prod.fst (Option.some.inj hl')).symm
          rw [htid, htr, hidx]
          have hkeys : tid ∉ rest.map Prod.fst := by
            have h0 := hnd
            simp only [List.map_cons, List.nodup_cons] at h0
            exact htid ▸ h0.1
          have huntouched :
              (applyPairs m o rest (stepState st i tid (o tid) tr)).1.entries[i]? =
                (stepState st i tid (o tid) tr).entries[i]? := by
            apply applyPairs_untouched
            intro t2 tr2 h2 f2 hlk
            have ht2 : t2 = tid := by
              have hm1 := lookup_mem hlk
              have hm2 := lookup_mem hl
              exact hinj _ hm1 _ hm2 rfl
            exact hkeys (ht2 ▸ List.mem_map_of_mem Prod.fst h2)
          obtain ⟨e, he1, he2⟩ := writeMsgstr_getElem?_eq st.entries i tr hi
          have hstep : (stepState st i tid (o tid) tr).entries[i]? =
              some { e with msgstr := tr } := by
            simp [stepState]
            exact he2
          refine ⟨?_, ?_, ?_⟩
          · rw [huntouched, hstep]
            rfl
          · rw [huntouched, hstep, he1]
            rfl
          · obtain ⟨T, W, h1, -, -, -, -, -⟩ := applyPairs_shape m o rest
              (stepState st i tid (o tid) tr)
            rw [h1]
            simp [stepState]
        · -- the written pair is further on
          have htid : tid ≠ tid' := by
            intro hcon
            have : tid ∈ rest.map Prod.fst := List.mem_map_of_mem Prod.fst hrest
            have hk : tid' ∉ rest.map Prod.fst := by
              have := hnd
              simp only [List.map_cons, List.nodup_cons] at this
              exact this.1
            exact hk (hcon ▸ this)
          have hidx : idx' ≠ i := by
            intro hcon
            have hm1 := lookup_mem hl'
            have hm2 := lookup_mem hl
            have : tid' = tid := by
              apply hinj _ hm1 _ hm2
              simpa using hcon
            exact htid this.symm
          have hrec := ih (stepState st idx' tid' (o tid') tr') tid tr i fld hrest hl
            (by simpa using hnd.of_cons)
            (fun p hp => hres p (List.mem_cons_of_mem _ hp))
            (by simp [stepState, writeMsgstr_length]; exact hi)
          refine ⟨hrec.1, ?_, hrec.2.2⟩
          rw [hrec.2.1]
          have : (stepState st idx' tid' (o tid') tr').entries[i]? = st.entries[i]? := by
            simp [stepState]
            exact writeMsgstr_getElem?_ne _ _ _ _ hidx
          rw [this]

theorem applyPairs_warning (m : IdMap) (o : Str → Str) :
    ∀ (pairs : List (Str × Option Str)) (st : DriverState) (tid tr : Str),
      (tid, some tr) ∈ pairs →
      (∀ p ∈ pairs, p.2.isSome = true → (lookupIdMap m p.1).isSome = true) →
      ¬(validate_placeholders (o tid) tr).isEmpty = true →
      (⟨tid, o tid, tr, validate_placeholders (o tid) tr⟩ : PhWarning) ∈
        (applyPairs m o pairs st).1.warnings := by
  intro pairs
  induction pairs with
  | nil => intro st tid tr hmem; simp at hmem
  | cons p rest ih =>
    intro st tid tr hmem hres hmiss
    obtain ⟨tid', v⟩ := p
    cases v with
    | none =>
      have hmem' : (tid, some tr) ∈ rest := by
        rcases List.mem_cons.mp hmem with h | h
        · exact absurd h (by simp)
        · exact h
      exact ih st tid tr hmem' (fun p hp => hres p (List.mem_cons_of_mem _ hp)) hmiss
    | some tr' =>
      have hsome : (lookupIdMap m tid').isSome = true :=
        hres (tid', some tr') (List.mem_cons_self _ _) rfl
      cases hl' : lookupIdMap m tid' with
      | none => rw [hl'] at hsome; exact absurd hsome (by simp)
      | some pr =>
        obtain ⟨idx', fld'⟩ := pr
        have happ : applyPairs m o ((tid', some tr') :: rest) st =
            applyPairs m o rest (stepState st idx' tid' (o tid') tr') := by
          simp [applyPairs, hl']
        rw [happ]
        rcases List.mem_cons.mp hmem with hhead | hrest
        · have htid : tid' = tid := congrArg Prod.fst hhead.symm
          have htr : tr' = tr := by
            have h0 := congrArg Prod.snd hhead.symm
            simpa using h0
          rw [htid, htr]
          obtain ⟨T, W, -, -, h3, -, -, -⟩ := applyPairs_shape m o rest
            (stepState st idx' tid (o tid) tr)
          rw [h3]
          apply List.mem_append_left
          simp [stepState, hmiss]
        · exact ih _ tid tr hrest (fun p hp => hres p (List.mem_cons_of_mem _ hp)) hmiss

theorem count_le_one_of_nodup {l : List Str} (h : l.Nodup) (a : Str) :
    List.count a l ≤ 1 := by
  induction l with
  | nil => simp
  | cons b rest ih =>
    rcases List.nodup_cons.mp h with ⟨hb, hrest⟩
    by_cases hab : (b == a) = true
    · have heq : b = a := eq_of_beq hab
      have hz : List.count a rest = 0 := List.count_eq_zero.mpr (heq ▸ hb)
      rw [List.count_cons, hz, if_pos hab]
    · rw [List.count_cons, if_neg hab]
      simpa using ih hrest

theorem nodup_of_count_le_one {l : List Str} (h : ∀ a, List.count a l ≤ 1) :
    l.Nodup := by
  induction l with
  | nil => exact List.nodup_nil
  | cons b rest ih =>
    rw [List.nodup_cons]
    constructor
    · intro hmem
      have h1 := h b
      rw [List.count_cons_self] at h1
      have hz : List.count b rest = 0 := by omega
      exact (List.count_eq_zero.mp hz) hmem
    · apply ih
      intro a
      have h1 := h a
      rw [List.count_cons] at h1
      by_cases hab : (b == a) = true
      · rw [if_pos hab] at h1; omega
      · rw [if_neg hab] at h1; omega

theorem nodup_subset_length_le {T L : List Str} (hT : T.Nodup) (hsub : T ⊆ L) :
    T.length ≤ L.length := by
  calc T.length = T.toFinset.card := (List.toFinset_card_of_nodup hT).symm
    _ ≤ L.toFinset.card := Finset.card_le_card (fun a ha =>
        List.mem_toFinset.mpr (hsub (List.mem_toFinset.mp ha)))
    _ ≤ L.length := List.toFinset_card_le L

theorem count_le_of_nodup_subset {T L : List Str} (hT : T.Nodup) (hsub : T ⊆ L)
    (a : Str) : List.count a T ≤ List.count a L := by
  by_cases hmem : a ∈ T
  · have h1 : List.count a T ≤ 1 := count_le_one_of_nodup hT a
    have h2 : 0 < List.count a L := List.count_pos_iff.mpr (hsub hmem)
    omega
  · rw [List.count_eq_zero.mpr hmem]
    omega

theorem count_single_bound {T : List Str} {F : List FailedItem} {i : Str}
    (hT : ∀ a ∈ T, a = i) (hF : ∀ f ∈ F, f.id = i)
    (hlen : T.length + F.length ≤ 1) (a : Str) :
    List.count a T + List.count a (F.map FailedItem.id) ≤ List.count a [i] := by
  cases T with
  | nil =>
    cases F with
    | nil => simp
    | cons f fs =>
      cases fs with
      | nil =>
        have hf : f.id = i := hF f (List.mem_singleton.mpr rfl)
        simp [hf]
      | cons f2 fs2 => exfalso; simp at hlen
  | cons x xs =>
    cases xs with
    | nil =>
      cases F with
      | nil =>
        have hx : x = i := hT x (List.mem_singleton.mpr rfl)
        simp [hx]
      | cons f fs => exfalso; simp at hlen
    | cons x2 xs2 => exfalso; simp at hlen; omega

theorem length_le_one_of_all_eq {T : List Str} {a : Str}
    (hnd : T.Nodup) (hall : ∀ x ∈ T, x = a) : T.length ≤ 1 := by
  cases T with
  | nil => simp
  | cons x xs =>
    cases xs with
    | nil => simp
    | cons y ys =>
      exfalso
      have hx := hall x (by simp)
      have hy := hall y (by simp)
      rw [List.nodup_cons] at hnd
      apply hnd.1
      have hxy : x = y := by rw [hx, hy]
      rw [hxy]
      exact List.mem_cons_self _ _

theorem processItem_err_eq (oracle : Oracle) (m : IdMap) (item : WorkItem)
    (st : DriverState) (e : Str) (ho : oracle st.calls [item] = Except.error e) :
    processItem oracle m item st =
      { st with calls := st.calls + 1,
                failed := st.failed ++ [⟨item.id, item.text, e⟩] } := by
  simp [processItem, ho]

theorem processItem_ok_eq (oracle : Oracle) (m : IdMap) (item : WorkItem)
    (st : DriverState) (pairs : List (Str × Option Str))
    (ho : oracle st.calls [item] = Except.ok pairs)
    (herr : (applyPairs m (fun _ => item.text) pairs
      { st with calls := st.calls + 1 }).2 = none) :
    processItem oracle m item st =
      (applyPairs m (fun _ => item.text) pairs { st with calls := st.calls + 1 }).1 := by
  cases happ : applyPairs m (fun _ => item.text) pairs
      { st with calls := st.calls + 1 } with
  | mk st2 err =>
    rw [happ] at herr
    subst herr
    simp [processItem, ho, happ]

theorem processBatch_err_eq (oracle : Oracle) (m : IdMap) (st : DriverState)
    (batch : List WorkItem) (e : Str) (ho : oracle st.calls batch = Except.error e) :
    processBatch oracle m st batch =
      batch.foldl (fun s it => processItem oracle m it s)
        { st with calls := st.calls + 1 } := by
  simp [processBatch, ho]

theorem processBatch_ok_eq (oracle : Oracle) (m : IdMap) (st : DriverState)
    (batch : List WorkItem) (pairs : List (Str × Option Str))
    (ho : oracle st.calls batch = Except.ok pairs)
    (herr : (applyPairs m (origOfBatch batch) pairs
      { st with calls := st.calls + 1 }).2 = none) :
    processBatch oracle m st batch =
      (applyPairs m (origOfBatch batch) pairs { st with calls := st.calls + 1 }).1 := by
  cases happ : applyPairs m (origOfBatch batch) pairs
      { st with calls := st.calls + 1 } with
  | mk st2 err =>
    rw [happ] at herr
    subst herr
    simp [processBatch, ho, happ]

/-- A fallback item ends in exactly one of: counted (under its own id),
failed (under its own id), or untouched; never more than one of these. -/
theorem processItem_delta (oracle : Oracle) (m : IdMap) (item : WorkItem)
    (st : DriverState) (hwb : WellBehaved oracle)
    (hres : (lookupIdMap m item.id).isSome = true) :
    ∃ T F,
      (processItem oracle m item st).translatedIds = st.translatedIds ++ T ∧
      (processItem oracle m item st).failed = st.failed ++ F ∧
      (processItem oracle m item st).entries.length = st.entries.length ∧
      T.length + F.length ≤ 1 ∧
      (∀ a ∈ T, a = item.id) ∧ (∀ f ∈ F, f.id = item.id) := by
  cases ho : oracle st.calls [item] with
  | error e =>
    rw [processItem_err_eq oracle m item st e ho]
    exact ⟨[], [⟨item.id, item.text, e⟩], by simp, by simp, by simp, by simp,
      by simp, by simp⟩
  | ok pairs =>
    obtain ⟨hnd, hkeys⟩ := hwb st.calls [item] pairs ho
    have hresall : ∀ p ∈ pairs, p.2.isSome = true →
        (lookupIdMap m p.1).isSome = true := by
      intro p hp _
      have hmem : p.1 ∈ [item.id] := by simpa using hkeys p hp
      rw [List.mem_singleton.mp hmem]
      exact hres
    have happr := applyPairs_resolved m (fun _ => item.text) pairs
      { st with calls := st.calls + 1 } hresall
    rw [processItem_ok_eq oracle m item st pairs ho happr.1]
    obtain ⟨T, W, h1, h2, h3, h4, h5, h6⟩ := applyPairs_shape m
      (fun _ => item.text) pairs { st with calls := st.calls + 1 }
    have hTsub : List.Sublist T (pairs.map Prod.fst) :=
      h2.trans (nonNullKeys_sublist_keys pairs)
    have hTnd : T.Nodup := List.Nodup.sublist hTsub hnd
    have hTall : ∀ a ∈ T, a = item.id := by
      intro a ha
      have : a ∈ pairs.map Prod.fst := hTsub.subset ha
      obtain ⟨p, hp, hpa⟩ := List.mem_map.mp this
      have := hkeys p hp
      rw [hpa] at this
      simpa using this
    refine ⟨T, [], ?_, ?_, ?_, ?_, hTall, ?_⟩
    · rw [h1]
    · rw [h4]; simp
    · rw [h6]
    · have := length_le_one_of_all_eq hTnd hTall
      simpa using this
    · simp

/-- Per-item fallback over a list of items: the counted ids and failed
ids together cover each item's id at most once. -/
theorem foldItems_delta (oracle : Oracle) (m : IdMap) (hwb : WellBehaved oracle) :
    ∀ (items : List WorkItem) (st : DriverState),
      (∀ it ∈ items, (lookupIdMap m it.id).isSome = true) →
      ∃ T F,
        (items.foldl (fun s it => processItem oracle m it s) st).translatedIds =
          st.translatedIds ++ T ∧
        (items.foldl (fun s it => processItem oracle m it s) st).failed =
          st.failed ++ F ∧
        (items.foldl (fun s it => processItem oracle m it s) st).entries.length =
          st.entries.length ∧
        (∀ a, List.count a T + List.count a (F.map FailedItem.id) ≤
          List.count a (items.map WorkItem.id)) ∧
        T.length + F.length ≤ items.length := by
  intro items
  induction items with
  | nil => intro st _; exact ⟨[], [], by simp, by simp, rfl, by simp, by simp⟩
  | cons item rest ih =>
    intro st hres
    obtain ⟨T1, F1, h1, h2, h3, h4, h5, h6⟩ := processItem_delta oracle m item st
      hwb (hres item (List.mem_cons_self _ _))
    obtain ⟨T2, F2, g1, g2, g3, g4, g5⟩ := ih (processItem oracle m item st)
      (fun it h => hres it (List.mem_cons_of_mem _ h))
    refine ⟨T1 ++ T2, F1 ++ F2, ?_, ?_, ?_, ?_, ?_⟩
    · rw [List.foldl_cons, g1, h1, List.append_assoc]
    · rw [List.foldl_cons, g2, h2, List.append_assoc]
    · rw [List.foldl_cons, g3, h3]
    · intro a
      have hb1 := count_single_bound h5 h6 h4 a
      have hb2 := g4 a
      rw [List.count_append, List.map_append, List.count_append, List.map_cons,
        List.count_cons]
      rw [List.count_singleton] at hb1
      by_cases hia : (item.id == a) = true
      · rw [if_pos hia] at hb1 ⊢
        omega
      · rw [if_neg hia] at hb1 ⊢
        omega
    · rw [List.length_append, List.length_append]
      simp only [List.length_cons]
      omega

/-- One batch contributes counted ids and failed ids covering each of
the batch's ids at most once, whatever the (well-behaved) capability
returns. -/
theorem processBatch_delta (oracle : Oracle) (m : IdMap) (hwb : WellBehaved oracle)
    (st : DriverState) (batch : List WorkItem)
    (hres : ∀ it ∈ batch, (lookupIdMap m it.id).isSome = true) :
    ∃ T F,
      (processBatch oracle m st batch).translatedIds = st.translatedIds ++ T ∧
      (processBatch oracle m st batch).failed = st.failed ++ F ∧
      (processBatch oracle m st batch).entries.length = st.entries.length ∧
      (∀ a, List.count a T + List.count a (F.map FailedItem.id) ≤
        List.count a (batch.map WorkItem.id)) ∧
      T.length + F.length ≤ batch.length := by
  cases ho : oracle st.calls batch with
  | error e =>
    rw [processBatch_err_eq oracle m st batch e ho]
    obtain ⟨T, F, h1, h2, h3, h4, h5⟩ := foldItems_delta oracle m hwb batch
      { st with calls := st.calls + 1 } hres
    exact ⟨T, F, h1, h2, h3, h4, by simpa using h5⟩
  | ok pairs =>
    obtain ⟨hknd, hkeys⟩ := hwb st.calls batch pairs ho
    have hresall : ∀ p ∈ pairs, p.2.isSome = true →
        (lookupIdMap m p.1).isSome = true := by
      intro p hp _
      obtain ⟨it, hit, hid⟩ := List.mem_map.mp (hkeys p hp)
      rw [← hid]
      exact hres it hit
    have happr := applyPairs_resolved m (origOfBatch batch) pairs
      { st with calls := st.calls + 1 } hresall
    rw [processBatch_ok_eq oracle m st batch pairs ho happr.1]
    obtain ⟨T, W, h1, h2, h3, h4, h5, h6⟩ := applyPairs_shape m
      (origOfBatch batch) pairs { st with calls := st.calls + 1 }
    have hTsub : List.Sublist T (pairs.map Prod.fst) :=
      h2.trans (nonNullKeys_sublist_keys pairs)
    have hTnd : T.Nodup := List.Nodup.sublist hTsub hknd
    have hTss : T ⊆ batch.map WorkItem.id := by
      intro a ha
      have : a ∈ pairs.map Prod.fst := hTsub.subset ha
      obtain ⟨p, hp, hpa⟩ := List.mem_map.mp this
      exact hpa ▸ hkeys p hp
    refine ⟨T, [], ?_, ?_, ?_, ?_, ?_⟩
    · rw [h1]
    · rw [h4]; simp
    · rw [h6]
    · intro a
      have := count_le_of_nodup_subset hTnd hTss a
      simpa using this
    · have := nodup_subset_length_le hTnd hTss
      simpa using this

/-- The whole batch loop: counted ids plus failed ids cover each queued
id at most once. -/
theorem foldBatches_delta (oracle : Oracle) (m : IdMap) (hwb : WellBehaved oracle) :
    ∀ (batches : List (List WorkItem)) (st : DriverState),
      (∀ b ∈ batches, ∀ it ∈ b, (lookupIdMap m it.id).isSome = true) →
      ∃ T F,
        (batches.foldl (processBatch oracle m) st).translatedIds =
          st.translatedIds ++ T ∧
        (batches.foldl (processBatch oracle m) st).failed = st.failed ++ F ∧
        (batches.foldl (processBatch oracle m) st).entries.length =
          st.entries.length ∧
        (∀ a, List.count a T + List.count a (F.map FailedItem.id) ≤
          List.count a ((batches.map (fun b => b.map WorkItem.id)).flatten)) ∧
        T.length + F.length ≤
          ((batches.map (fun b => b.map WorkItem.id)).flatten).length := by
  intro batches
  induction batches with
  | nil => intro st _; exact ⟨[], [], by simp, by simp, rfl, by simp, by simp⟩
  | cons b rest ih =>
    intro st hb
    obtain ⟨T1, F1, h1, h2, h3, h4, h5⟩ := processBatch_delta oracle m hwb st b
      (hb b (List.mem_cons_self _ _))
    obtain ⟨T2, F2, g1, g2, g3, g4, g5⟩ := ih (processBatch oracle m st b)
      (fun b' h => hb b' (List.mem_cons_of_mem _ h))
    refine ⟨T1 ++ T2, F1 ++ F2, ?_, ?_, ?_, ?_, ?_⟩
    · rw [List.foldl_cons, g1, h1, List.append_assoc]
    · rw [List.foldl_cons, g2, h2, List.append_assoc]
    · rw [List.foldl_cons, g3, h3]
    · intro a
      have hb1 := h4 a
      have hb2 := g4 a
      rw [List.count_append, List.map_append, List.count_append,
        List.map_cons, List.flatten_cons, List.count_append]
      omega
    · rw [List.length_append, List.length_append]
      simp only [List.map_cons, List.flatten_cons, List.length_append,
        List.length_map]
      omega

theorem buildGo_ids (sl : String) (force : Bool) :
    ∀ (po : List POEntry) (idx counter : Nat),
      (buildGo sl force po idx counter).1.map WorkItem.id =
        (List.range' (counter + 1)
          (buildGo sl force po idx counter).1.length).map natToId := by
  intro po
  induction po with
  | nil => intro idx counter; rfl
  | cons e rest ih =>
    intro idx counter
    rw [buildGo]
    by_cases hid : e.msgid.isEmpty
    · rw [if_pos hid]
      exact ih _ _
    · rw [if_neg hid]
      cases hch : entryChoice e sl force with
      | none => simpa using ih (idx + 1) counter
      | some pr =>
        obtain ⟨text, fld⟩ := pr
        by_cases htext : text.isEmpty
        · simp only [if_pos htext]
          simpa using ih (idx + 1) counter
        · simp only [if_neg htext, List.map_cons, List.length_cons,
            List.range'_succ]
          rw [ih (idx + 1) (counter + 1)]

theorem buildGo_keys (sl : String) (force : Bool) :
    ∀ (po : List POEntry) (idx counter : Nat),
      (buildGo sl force po idx counter).2.1.map Prod.fst =
        (buildGo sl force po idx counter).1.map WorkItem.id := by
  intro po
  induction po with
  | nil => intro idx counter; rfl
  | cons e rest ih =>
    intro idx counter
    rw [buildGo]
    by_cases hid : e.msgid.isEmpty
    · rw [if_pos hid]
      exact ih _ _
    · rw [if_neg hid]
      cases hch : entryChoice e sl force with
      | none => simpa using ih (idx + 1) counter
      | some pr =>
        obtain ⟨text, fld⟩ := pr
        by_cases htext : text.isEmpty
        · simp only [if_pos htext]
          simpa using ih (idx + 1) counter
        · simp only [if_neg htext, List.map_cons]
          rw [ih (idx + 1) (counter + 1)]

theorem build_ids_nodup (po : List POEntry) (sl : String) (force : Bool) :
    ((build_work_items po sl force).1.map WorkItem.id).Nodup := by
  rw [build_work_items, buildGo_ids]
  exact List.Nodup.map natToId_injective (List.nodup_range' _ _)

theorem processItem_calls (oracle : Oracle) (m : IdMap) (item : WorkItem)
    (st : DriverState) : (processItem oracle m item st).calls = st.calls + 1 := by
  cases ho : oracle st.calls [item] with
  | error e => simp [processItem_err_eq oracle m item st e ho]
  | ok pairs =>
    obtain ⟨T, W, h1, h2, h3, h4, h5, h6⟩ := applyPairs_shape m
      (fun _ => item.text) pairs { st with calls := st.calls + 1 }
    cases happ : applyPairs m (fun _ => item.text) pairs
        { st with calls := st.calls + 1 } with
    | mk st2 err =>
      rw [happ] at h5
      simp at h5
      cases err with
      | none =>
        have hpi : processItem oracle m item st = st2 := by
          simp [processItem, ho, happ]
        rw [hpi, h5]
      | some tid =>
        have hpi : processItem oracle m item st =
            { st2 with failed :=
              st2.failed ++ [⟨item.id, item.text, keyErrorRepr tid⟩] } := by
          simp [processItem, ho, happ]
        rw [hpi]
        exact h5

theorem processItem_entries_length (oracle : Oracle) (m : IdMap) (item : WorkItem)
    (st : DriverState) :
    (processItem oracle m item st).entries.length = st.entries.length := by
  cases ho : oracle st.calls [item] with
  | error e => simp [processItem_err_eq oracle m item st e ho]
  | ok pairs =>
    obtain ⟨T, W, h1, h2, h3, h4, h5, h6⟩ := applyPairs_shape m
      (fun _ => item.text) pairs { st with calls := st.calls + 1 }
    cases happ : applyPairs m (fun _ => item.text) pairs
        { st with calls := st.calls + 1 } with
    | mk st2 err =>
      rw [happ] at h6
      simp at h6
      cases err with
      | none =>
        have hpi : processItem oracle m item st = st2 := by
          simp [processItem, ho, happ]
        rw [hpi, h6]
      | some tid =>
        have hpi : processItem oracle m item st =
            { st2 with failed :=
              st2.failed ++ [⟨item.id, item.text, keyErrorRepr tid⟩] } := by
          simp [processItem, ho, happ]
        rw [hpi]
        exact h6

theorem processItem_monotone (oracle : Oracle) (m : IdMap) (item : WorkItem)
    (st : DriverState) :
    ∃ T F W,
      (processItem oracle m item st).translatedIds = st.translatedIds ++ T ∧
      (processItem oracle m item st).failed = st.failed ++ F ∧
      (processItem oracle m item st).warnings = st.warnings ++ W := by
  cases ho : oracle st.calls [item] with
  | error e =>
    refine ⟨[], [⟨item.id, item.text, e⟩], [], ?_, ?_, ?_⟩ <;>
      simp [processItem_err_eq oracle m item st e ho]
  | ok pairs =>
    obtain ⟨T, W, h1, h2, h3, h4, h5, h6⟩ := applyPairs_shape m
      (fun _ => item.text) pairs { st with calls := st.calls + 1 }
    cases happ : applyPairs m (fun _ => item.text) pairs
        { st with calls := st.calls + 1 } with
    | mk st2 err =>
      rw [happ] at h1 h3 h4
      simp at h1 h3 h4
      cases err with
      | none =>
        have hpi : processItem oracle m item st = st2 := by
          simp [processItem, ho, happ]
        rw [hpi]
        exact ⟨T, [], W, h1, by rw [h4]; simp, h3⟩
      | some tid =>
        have hpi : processItem oracle m item st =
            { st2 with failed :=
              st2.failed ++ [⟨item.id, item.text, keyErrorRepr tid⟩] } := by
          simp [processItem, ho, happ]
        rw [hpi]
        exact ⟨T, [⟨item.id, item.text, keyErrorRepr tid⟩], W,
          by simp; exact h1, by simp; rw [h4], by simp; exact h3⟩

theorem foldItems_calls (oracle : Oracle) (m : IdMap) :
    ∀ (items : List WorkItem) (st : DriverState),
      (items.foldl (fun s x => processItem oracle m x s) st).calls =
        st.calls + items.length := by
  intro items
  induction items with
  | nil => intro st; simp
  | cons x rest ih =>
    intro st
    rw [List.foldl_cons, ih, processItem_calls]
    simp only [List.length_cons]
    omega

theorem foldItems_sup (oracle : Oracle) (m : IdMap) :
    ∀ (items : List WorkItem) (st : DriverState),
      ∃ T F W,
        (items.foldl (fun s x => processItem oracle m x s) st).translatedIds =
          st.translatedIds ++ T ∧
        (items.foldl (fun s x => processItem oracle m x s) st).failed =
          st.failed ++ F ∧
        (items.foldl (fun s x => processItem oracle m x s) st).warnings =
          st.warnings ++ W := by
  intro items
  induction items with
  | nil => intro st; exact ⟨[], [], [], by simp, by simp, by simp⟩
  | cons x rest ih =>
    intro st
    obtain ⟨T1, F1, W1, h1, h2, h3⟩ := processItem_monotone oracle m x st
    obtain ⟨T2, F2, W2, g1, g2, g3⟩ := ih (processItem oracle m x st)
    exact ⟨T1 ++ T2, F1 ++ F2, W1 ++ W2,
      by rw [List.foldl_cons, g1, h1, List.append_assoc],
      by rw [List.foldl_cons, g2, h2, List.append_assoc],
      by rw [List.foldl_cons, g3, h3, List.append_assoc]⟩

theorem processItem_untouched (oracle : Oracle) (m : IdMap) (item : WorkItem)
    (st : DriverState) (i : Nat) (hwb : WellBehaved oracle)
    (hno : ∀ fld, lookupIdMap m item.id ≠ some (i, fld)) :
    (processItem oracle m item st).entries[i]? = st.entries[i]? := by
  cases ho : oracle st.calls [item] with
  | error e => simp [processItem_err_eq oracle m item st e ho]
  | ok pairs =>
    obtain ⟨hnd, hkeys⟩ := hwb st.calls [item] pairs ho
    have hno2 : ∀ tid tr, (tid, some tr) ∈ pairs →
        ∀ fld, lookupIdMap m tid ≠ some (i, fld) := by
      intro tid tr hp fld
      have hm1 : tid ∈ [item.id] := by simpa using hkeys (tid, some tr) hp
      rw [List.mem_singleton.mp hm1]
      exact hno fld
    have hunt := applyPairs_untouched m (fun _ => item.text) pairs
      { st with calls := st.calls + 1 } i hno2
    cases happ : applyPairs m (fun _ => item.text) pairs
        { st with calls := st.calls + 1 } with
    | mk st2 err =>
      rw [happ] at hunt
      simp at hunt
      cases err with
      | none =>
        have hpi : processItem oracle m item st = st2 := by
          simp [processItem, ho, happ]
        rw [hpi]
        exact hunt
      | some tid =>
        have hpi : processItem oracle m item st =
            { st2 with failed :=
              st2.failed ++ [⟨item.id, item.text, keyErrorRepr tid⟩] } := by
          simp [processItem, ho, happ]
        rw [hpi]
        exact hunt

theorem foldItems_untouched (oracle : Oracle) (m : IdMap) (hwb : WellBehaved oracle) :
    ∀ (items : List WorkItem) (st : DriverState) (i : Nat),
      (∀ it ∈ items, ∀ fld, lookupIdMap m it.id ≠ some (i, fld)) →
      (items.foldl (fun s x => processItem oracle m x s) st).entries[i]? =
        st.entries[i]? := by
  intro items
  induction items with
  | nil => intro st i _; rfl
  | cons x rest ih =>
    intro st i hno
    rw [List.foldl_cons, ih _ i (fun it2 h2 => hno it2 (List.mem_cons_of_mem _ h2))]
    exact processItem_untouched oracle m x st i hwb (hno x (List.mem_cons_self _ _))

/-- A per-item fallback success follows the same validate-then-write
logic as a batch success, with the validation source being the item's
own text: the translation is written, the id counted, and a warning
recorded whenever the validator flags missing tokens. -/
theorem processItem_success_spec (oracle : Oracle) (m : IdMap) (item : WorkItem)
    (st : DriverState) (hwb : WellBehaved oracle)
    (hinj : ∀ x ∈ m, ∀ y ∈ m, x.2.1 = y.2.1 → x.1 = y.1)
    {pairs : List (Str × Option Str)} {tr : Str} {i : Nat} {fld : String}
    (ho : oracle st.calls [item] = Except.ok pairs)
    (hmem : (item.id, some tr) ∈ pairs)
    (hl : lookupIdMap m item.id = some (i, fld))
    (hvalid : ∀ x ∈ m, x.2.1 < st.entries.length) :
    ((processItem oracle m item st).entries[i]?).map POEntry.msgstr = some tr ∧
    item.id ∈ (processItem oracle m item st).translatedIds ∧
    (¬(validate_placeholders item.text tr).isEmpty = true →
      (⟨item.id, item.text, tr, validate_placeholders item.text tr⟩ : PhWarning) ∈
        (processItem oracle m item st).warnings) := by
  obtain ⟨hnd, hkeys⟩ := hwb st.calls [item] pairs ho
  have hresall : ∀ p ∈ pairs, p.2.isSome = true →
      (lookupIdMap m p.1).isSome = true := by
    intro p hp _
    have hm1 : p.1 ∈ [item.id] := by simpa using hkeys p hp
    rw [List.mem_singleton.mp hm1, hl]
    rfl
  have happr := applyPairs_resolved m (fun _ => item.text) pairs
    { st with calls := st.calls + 1 } hresall
  rw [processItem_ok_eq oracle m item st pairs ho happr.1]
  have hi : i < ({ st with calls := st.calls + 1 } : DriverState).entries.length :=
    hvalid _ (lookup_mem hl)
  have hw := applyPairs_write m (fun _ => item.text) hinj pairs
    { st with calls := st.calls + 1 } item.id tr i fld hmem hl hnd hresall hi
  refine ⟨hw.1, hw.2.2, ?_⟩
  intro hmiss
  exact applyPairs_warning m (fun _ => item.text) pairs
    { st with calls := st.calls + 1 } item.id tr hmem hresall hmiss

/-- Per-item fallback over `pre ++ it :: post`: the item `it` is handled
by the capability call number `st.calls + pre.length`; if that call
raises, the failure is recorded with the item's id, text and error and
the item's entry is left unmodified by the whole fold; if it succeeds
with a value for the item's id, the value is written, the id counted,
and the placeholder warning recorded whenever the validator flags
missing tokens. -/
theorem foldItems_item_spec (oracle : Oracle) (m : IdMap)
    (hwb : WellBehaved oracle)
    (hinj : ∀ x ∈ m, ∀ y ∈ m, x.2.1 = y.2.1 → x.1 = y.1) :
    ∀ (pre : List WorkItem) (it : WorkItem) (post : List WorkItem)
      (st : DriverState),
      (∀ x ∈ m, x.2.1 < st.entries.length) →
      (((pre ++ it :: post).map WorkItem.id).Nodup) →
      (∀ err, oracle (st.calls + pre.length) [it] = Except.error err →
        (⟨it.id, it.text, err⟩ : FailedItem) ∈
          ((pre ++ it :: post).foldl (fun s x => processItem oracle m x s)
            st).failed ∧
        (∀ i fld, lookupIdMap m it.id = some (i, fld) →
          ((pre ++ it :: post).foldl (fun s x => processItem oracle m x s)
            st).entries[i]? = st.entries[i]?)) ∧
      (∀ pairs tr, oracle (st.calls + pre.length) [it] = Except.ok pairs →
        (it.id, some tr) ∈ pairs →
        ∀ i fld, lookupIdMap m it.id = some (i, fld) →
          (((pre ++ it :: post).foldl (fun s x => processItem oracle m x s)
            st).entries[i]?).map POEntry.msgstr = some tr ∧
          it.id ∈ ((pre ++ it :: post).foldl
            (fun s x => processItem oracle m x s) st).translatedIds ∧
          (¬(validate_placeholders it.text tr).isEmpty = true →
            (⟨it.id, it.text, tr, validate_placeholders it.text tr⟩ :
              PhWarning) ∈
              ((pre ++ it :: post).foldl (fun s x => processItem oracle m x s)
                st).warnings)) := by
  intro pre
  induction pre with
  | nil =>
    intro it post st hvalid hnd
    simp only [List.nil_append, List.foldl_cons]
    constructor
    · intro err ho
      have ho' : oracle st.calls [it] = Except.error err := by simpa using ho
      have hstep := processItem_err_eq oracle m it st err ho'
      constructor
      · obtain ⟨T, F, W, -, h2, -⟩ := foldItems_sup oracle m post
          (processItem oracle m it st)
        rw [h2, hstep]
        exact List.mem_append_left _
          (List.mem_append_right _ (List.mem_singleton.mpr rfl))
      · intro i fld hl
        have hno : ∀ it2 ∈ post, ∀ fld2, lookupIdMap m it2.id ≠ some (i, fld2) := by
          intro it2 h2 fld2 hlk
          have heq : it2.id = it.id := hinj _ (lookup_mem hlk) _ (lookup_mem hl) rfl
          have hmem2 : it2.id ∈ post.map WorkItem.id :=
            List.mem_map_of_mem WorkItem.id h2
          have h0 := hnd
          simp only [List.nil_append, List.map_cons] at h0
          exact (List.nodup_cons.mp h0).1 (heq ▸ hmem2)
        rw [foldItems_untouched oracle m hwb post (processItem oracle m it st)
          i hno, hstep]
    · intro pairs tr ho hmem i fld hl
      have ho' : oracle st.calls [it] = Except.ok pairs := by simpa using ho
      have hno : ∀ it2 ∈ post, ∀ fld2, lookupIdMap m it2.id ≠ some (i, fld2) := by
        intro it2 h2 fld2 hlk
        have heq : it2.id = it.id := hinj _ (lookup_mem hlk) _ (lookup_mem hl) rfl
        have hmem2 : it2.id ∈ post.map WorkItem.id :=
          List.mem_map_of_mem WorkItem.id h2
        have h0 := hnd
        simp only [List.nil_append, List.map_cons] at h0
        exact (List.nodup_cons.mp h0).1 (heq ▸ hmem2)
      obtain ⟨hw1, hw2, hw3⟩ := processItem_success_spec oracle m it st hwb hinj
        ho' hmem hl hvalid
      refine ⟨?_, ?_, ?_⟩
      · rw [foldItems_untouched oracle m hwb post (processItem oracle m it st)
          i hno]
        exact hw1
      · obtain ⟨T, F, W, h1, -, -⟩ := foldItems_sup oracle m post
          (processItem oracle m it st)
        rw [h1]
        exact List.mem_append_left _ hw2
      · intro hmiss
        obtain ⟨T, F, W, -, -, h3⟩ := foldItems_sup oracle m post
          (processItem oracle m it st)
        rw [h3]
        exact List.mem_append_left _ (hw3 hmiss)
  | cons p pre' ih =>
    intro it post st hvalid hnd
    simp only [List.cons_append, List.foldl_cons]
    have hidx : st.calls + (p :: pre').length =
        (processItem oracle m p st).calls + pre'.length := by
      rw [processItem_calls]
      simp only [List.length_cons]
      omega
    have hvalid' : ∀ x ∈ m, x.2.1 < (processItem oracle m p st).entries.length := by
      intro x hx
      rw [processItem_entries_length]
      exact hvalid x hx
    have hnd' : ((pre' ++ it :: post).map WorkItem.id).Nodup := by
      have h0 := hnd
      rw [List.cons_append, List.map_cons] at h0
      exact (List.nodup_cons.mp h0).2
    have IH := ih it post (processItem oracle m p st) hvalid' hnd'
    have hpid : p.id ∉ (pre' ++ it :: post).map WorkItem.id := by
      have h0 := hnd
      rw [List.cons_append, List.map_cons] at h0
      exact (List.nodup_cons.mp h0).1
    constructor
    · intro err ho
      have ho' : oracle ((processItem oracle m p st).calls + pre'.length) [it] =
          Except.error err := by
        rw [← hidx]
        exact ho
      obtain ⟨hfail, hunt⟩ := IH.1 err ho'
      refine ⟨hfail, ?_⟩
      intro i fld hl
      rw [hunt i fld hl]
      apply processItem_untouched oracle m p st i hwb
      intro fld2 hlk
      have heq : p.id = it.id := hinj _ (lookup_mem hlk) _ (lookup_mem hl) rfl
      have hmem2 : it.id ∈ (pre' ++ it :: post).map WorkItem.id := by simp
      exact hpid (heq ▸ hmem2)
    · intro pairs tr ho hmem i fld hl
      have ho' : oracle ((processItem oracle m p st).calls + pre'.length) [it] =
          Except.ok pairs := by
        rw [← hidx]
        exact ho
      exact IH.2 pairs tr ho' hmem i fld hl

theorem processBatch_calls_ge (oracle : Oracle) (m : IdMap) (st : DriverState)
    (batch : List WorkItem) :
    st.calls + 1 ≤ (processBatch oracle m st batch).calls := by
  cases ho : oracle st.calls batch with
  | error e =>
    rw [processBatch_err_eq oracle m st batch e ho, foldItems_calls]
    simp
  | ok pairs =>
    obtain ⟨T, W, h1, h2, h3, h4, h5, h6⟩ := applyPairs_shape m
      (origOfBatch batch) pairs { st with calls := st.calls + 1 }
    cases happ : applyPairs m (origOfBatch batch) pairs
        { st with calls := st.calls + 1 } with
    | mk st2 err =>
      rw [happ] at h5
      simp at h5
      cases err with
      | none =>
        have hpb : processBatch oracle m st batch = st2 := by
          simp [processBatch, ho, happ]
        rw [hpb, h5]
      | some tid =>
        have hpb : processBatch oracle m st batch =
            batch.foldl (fun s x => processItem oracle m x s) st2 := by
          simp [processBatch, ho, happ]
        rw [hpb, foldItems_calls, h5]
        omega

/-- Every batch of the run is attempted: each loop iteration issues at
least one capability call, whatever the previous batches' outcomes. -/
theorem foldBatches_calls_ge (oracle : Oracle) (m : IdMap) :
    ∀ (batches : List (List WorkItem)) (st0 : DriverState),
      st0.calls + batches.length ≤
        (batches.foldl (processBatch oracle m) st0).calls := by
  intro batches
  induction batches with
  | nil => intro st0; simp
  | cons b rest ih =>
    intro st0
    rw [List.foldl_cons]
    have h1 := processBatch_calls_ge oracle m st0 b
    have h2 := ih (processBatch oracle m st0 b)
    simp only [List.length_cons]
    omega

/-- **C1 (amended).** For every catalog, batch size ≥ 1, and capability
whose successful responses map only ids of the items passed in that
call (each at most once, as a Python dict guarantees), the run satisfies
`translated + distinctFailedIds ≤ totalToTranslate`, no id is counted as
translated more than once, no id is both counted translated and recorded
failed, and every counted or failed id is a queued work-item id — so
each work item ends in exactly one of {written successfully (with or
without warning), failed, absent-from-response-and-untouched}. -/
theorem claim_C1_coverage_partition (oracle : Oracle) (po : List POEntry)
    (source_lang : String) (force : Bool) (bs : Nat) (hbs : 1 ≤ bs)
    (hwb : WellBehaved oracle) :
    (translate_po_file oracle po bs source_lang force).translated +
      (((translate_po_file_state oracle po bs source_lang force).failed.map
        FailedItem.id).dedup).length ≤
      (translate_po_file oracle po bs source_lang force).total_to_translate ∧
    (translate_po_file_state oracle po bs source_lang force).translatedIds.Nodup ∧
    (∀ tid, tid ∈ (translate_po_file_state oracle po bs source_lang
        force).translatedIds →
      tid ∉ (translate_po_file_state oracle po bs source_lang force).failed.map
        FailedItem.id) ∧
    (∀ tid ∈ (translate_po_file_state oracle po bs source_lang
        force).translatedIds,
      tid ∈ (build_work_items po source_lang force).1.map WorkItem.id) ∧
    (∀ f ∈ (translate_po_file_state oracle po bs source_lang force).failed,
      f.id ∈ (build_work_items po source_lang force).1.map WorkItem.id) := by
  obtain ⟨mb, rfl⟩ : ∃ mb, bs = mb + 1 := ⟨bs - 1, by omega⟩
  have hkeys : (build_work_items po source_lang force).2.1.map Prod.fst =
      (build_work_items po source_lang force).1.map WorkItem.id :=
    buildGo_keys source_lang force po 0 0
  have hresolvable : ∀ it ∈ (build_work_items po source_lang force).1,
      (lookupIdMap (build_work_items po source_lang force).2.1 it.id).isSome =
        true := by
    intro it hit
    apply lookup_isSome_of_mem_keys
    rw [hkeys]
    exact List.mem_map_of_mem WorkItem.id hit
  have hbatchres :
      ∀ b ∈ chunked (build_work_items po source_lang force).1 (mb + 1),
      ∀ it ∈ b,
      (lookupIdMap (build_work_items po source_lang force).2.1 it.id).isSome =
        true := by
    intro b hbmem it hit
    rw [chunked, if_neg (by simp)] at hbmem
    exact hresolvable it ((chunkedAux_sublist _ _ _ b hbmem).subset hit)
  obtain ⟨T, F, h1, h2, h3, h4, h5⟩ := foldBatches_delta oracle
    (build_work_items po source_lang force).2.1 hwb
    (chunked (build_work_items po source_lang force).1 (mb + 1))
    ⟨po, [], [], [], 0⟩ hbatchres
  have hstate : translate_po_file_state oracle po (mb + 1) source_lang force =
      (chunked (build_work_items po source_lang force).1 (mb + 1)).foldl
        (processBatch oracle (build_work_items po source_lang force).2.1)
        ⟨po, [], [], [], 0⟩ := rfl
  have hT : (translate_po_file_state oracle po (mb + 1) source_lang
      force).translatedIds = T := by
    rw [hstate, h1]
    simp
  have hF : (translate_po_file_state oracle po (mb + 1) source_lang
      force).failed = F := by
    rw [hstate, h2]
    simp
  have hflat :
      ((chunked (build_work_items po source_lang force).1 (mb + 1)).map
        (fun b => b.map WorkItem.id)).flatten =
      (build_work_items po source_lang force).1.map WorkItem.id := by
    rw [← List.map_flatten, chunked_flatten]
  rw [hflat] at h4 h5
  have hidnodup := build_ids_nodup po source_lang force
  have hcount1 := count_le_one_of_nodup hidnodup
  have htrans : (translate_po_file oracle po (mb + 1) source_lang
      force).translated = T.length := by
    have e1 : (translate_po_file oracle po (mb + 1) source_lang
        force).translated =
      (translate_po_file_state oracle po (mb + 1) source_lang
        force).translatedIds.length := rfl
    rw [e1, hT]
  have htot : (translate_po_file oracle po (mb + 1) source_lang
      force).total_to_translate =
      (build_work_items po source_lang force).1.length := rfl
  refine ⟨?_, ?_, ?_, ?_, ?_⟩
  · rw [htrans, htot, hF]
    have hd : ((F.map FailedItem.id).dedup).length ≤ F.length := by
      have hsub := (List.dedup_sublist (F.map FailedItem.id)).length_le
      simpa using hsub
    have h5' : T.length + F.length ≤
        (build_work_items po source_lang force).1.length := by
      simpa using h5
    omega
  · rw [hT]
    apply nodup_of_count_le_one
    intro a
    have hc := h4 a
    have hc1 := hcount1 a
    omega
  · intro tid htid hmem
    rw [hT] at htid
    rw [hF] at hmem
    have c1 : 0 < List.count tid T := List.count_pos_iff.mpr htid
    have c2 : 0 < List.count tid (F.map FailedItem.id) :=
      List.count_pos_iff.mpr hmem
    have hc := h4 tid
    have hc1 := hcount1 tid
    omega
  · intro tid htid
    rw [hT] at htid
    have c1 : 0 < List.count tid T := List.count_pos_iff.mpr htid
    have hc := h4 tid
    have hpos : 0 < List.count tid
        ((build_work_items po source_lang force).1.map WorkItem.id) := by
      omega
    exact List.count_pos_iff.mp hpos
  · intro f hf
    rw [hF] at hf
    have c2 : 0 < List.count f.id (F.map FailedItem.id) :=
      List.count_pos_iff.mpr (List.mem_map_of_mem FailedItem.id hf)
    have hc := h4 f.id
    have hpos : 0 < List.count f.id
        ((build_work_items po source_lang force).1.map WorkItem.id) := by
      omega
    exact List.count_pos_iff.mp hpos

/-- **C1 witness.** A capability that always raises (vacuously
well-behaved): the single queued item fails, so
`translated + distinctFailedIds = 0 + 1 ≤ 1 = totalToTranslate`. -/
theorem claim_C1_coverage_partition_witness :
    (translate_po_file (fun _ _ => Except.error "offline".toList)
        [⟨"Accept All".toList, []⟩] 1 "auto" true).translated +
      (((translate_po_file_state (fun _ _ => Except.error "offline".toList)
          [⟨"Accept All".toList, []⟩] 1 "auto" true).failed.map
        FailedItem.id).dedup).length ≤
      (translate_po_file (fun _ _ => Except.error "offline".toList)
        [⟨"Accept All".toList, []⟩] 1 "auto" true).total_to_translate :=
  (claim_C1_coverage_partition (fun _ _ => Except.error "offline".toList)
    [⟨"Accept All".toList, []⟩] "auto" true 1 (by decide)
    (fun _ _ _ h => nomatch h)).1

/-- **C7.** On a successful batch call: every id of the response with a
non-null value has the returned translation written into its entry
(preserving the entry's source text) and is counted as translated, with
no hypothesis on the placeholder validator — when the validator reports
missing tokens the corresponding warning is recorded, yet the write
still happens; every work item whose id is absent from the response or
mapped to null keeps its entry unmodified and is counted neither as
translated nor as failed (the failures list is unchanged by a successful
batch). -/
theorem claim_C7_success_write_semantics
    (oracle : Oracle) (idMap : IdMap) (st : DriverState) (batch : List WorkItem)
    (pairs : List (Str × Option Str))
    (ho : oracle st.calls batch = Except.ok pairs)
    (hnd : (pairs.map Prod.fst).Nodup)
    (hres : ∀ p ∈ pairs, p.2.isSome = true → (lookupIdMap idMap p.1).isSome = true)
    (hinj : ∀ x ∈ idMap, ∀ y ∈ idMap, x.2.1 = y.2.1 → x.1 = y.1)
    (hvalid : ∀ x ∈ idMap, x.2.1 < st.entries.length) :
    (processBatch oracle idMap st batch).failed = st.failed ∧
    (∀ tid tr i fld, (tid, some tr) ∈ pairs →
      lookupIdMap idMap tid = some (i, fld) →
      (((processBatch oracle idMap st batch).entries[i]?).map POEntry.msgstr =
          some tr ∧
        ((processBatch oracle idMap st batch).entries[i]?).map POEntry.msgid =
          (st.entries[i]?).map POEntry.msgid ∧
        tid ∈ (processBatch oracle idMap st batch).translatedIds)) ∧
    (∀ wi ∈ batch, (∀ tr, (wi.id, some tr) ∉ pairs) →
      ∀ i fld, lookupIdMap idMap wi.id = some (i, fld) →
      ((processBatch oracle idMap st batch).entries[i]? = st.entries[i]? ∧
        (wi.id ∈ (processBatch oracle idMap st batch).translatedIds ↔
          wi.id ∈ st.translatedIds))) ∧
    (∀ tid tr, (tid, some tr) ∈ pairs →
      ¬(validate_placeholders (origOfBatch batch tid) tr).isEmpty = true →
      (⟨tid, origOfBatch batch tid, tr,
        validate_placeholders (origOfBatch batch tid) tr⟩ : PhWarning) ∈
        (processBatch oracle idMap st batch).warnings) := by
  have hr := applyPairs_resolved idMap (origOfBatch batch) pairs
    { st with calls := st.calls + 1 } hres
  have hred : processBatch oracle idMap st batch =
      (applyPairs idMap (origOfBatch batch) pairs
        { st with calls := st.calls + 1 }).1 := by
    cases happ : applyPairs idMap (origOfBatch batch) pairs
        { st with calls := st.calls + 1 } with
    | mk st2 err =>
      have herr : err = none := by
        have h0 := hr.1
        rw [happ] at h0
        exact h0
      subst herr
      simp [processBatch, ho, happ]
  rw [hred]
  refine ⟨?_, ?_, ?_, ?_⟩
  · obtain ⟨T, W, -, -, -, h4, -, -⟩ := applyPairs_shape idMap (origOfBatch batch)
      pairs { st with calls := st.calls + 1 }
    rw [h4]
  · intro tid tr i fld hmem hl
    have hi : i < st.entries.length := hvalid _ (lookup_mem hl)
    exact applyPairs_write idMap (origOfBatch batch) hinj pairs
      { st with calls := st.calls + 1 } tid tr i fld hmem hl hnd hres hi
  · intro wi hwi hno i fld hl
    constructor
    · apply applyPairs_untouched
      intro t2 tr2 h2 f2 hlk
      have ht2 : t2 = wi.id := by
        have hm1 := lookup_mem hlk
        have hm2 := lookup_mem hl
        exact hinj _ hm1 _ hm2 rfl
      exact hno tr2 (ht2 ▸ h2)
    · rw [hr.2]
      have : wi.id ∉ nonNullKeys pairs := by
        intro hmem
        obtain ⟨tr, htr⟩ := mem_nonNullKeys.mp hmem
        exact hno tr htr
      simp [this]
  · intro tid tr hmem hmiss
    exact applyPairs_warning idMap (origOfBatch batch) pairs
      { st with calls := st.calls + 1 } tid tr hmem hres hmiss

/-- **C7 witness.** A two-pair response (one value dropping the `%s`
placeholder, one null) against a three-item batch: item 1's entry is
written even though the validator flags `%s`, item 2 (null) and item 3
(absent) stay untouched and uncounted, and no failure is recorded. -/
theorem claim_C7_success_write_semantics_witness :
    (((processBatch
        (fun _ _ => Except.ok [(['1'], some "Godta alle".toList), (['2'], none)])
        [(['1'], 0, "msgid"), (['2'], 1, "msgid"), (['3'], 2, "msgid")]
        ⟨[⟨"Accept %s".toList, []⟩, ⟨"Cookie".toList, []⟩, ⟨"Help".toList, []⟩],
          [], [], [], 0⟩
        [⟨['1'], "Accept %s".toList, "en".toList⟩,
         ⟨['2'], "Cookie".toList, "en".toList⟩,
         ⟨['3'], "Help".toList, "en".toList⟩]).entries[0]?).map POEntry.msgstr =
      some "Godta alle".toList) ∧
    ((processBatch
        (fun _ _ => Except.ok [(['1'], some "Godta alle".toList), (['2'], none)])
        [(['1'], 0, "msgid"), (['2'], 1, "msgid"), (['3'], 2, "msgid")]
        ⟨[⟨"Accept %s".toList, []⟩, ⟨"Cookie".toList, []⟩, ⟨"Help".toList, []⟩],
          [], [], [], 0⟩
        [⟨['1'], "Accept %s".toList, "en".toList⟩,
         ⟨['2'], "Cookie".toList, "en".toList⟩,
         ⟨['3'], "Help".toList, "en".toList⟩]).failed = []) := by
  have H := claim_C7_success_write_semantics
    (fun _ _ => Except.ok [(['1'], some "Godta alle".toList), (['2'], none)])
    [(['1'], 0, "msgid"), (['2'], 1, "msgid"), (['3'], 2, "msgid")]
    ⟨[⟨"Accept %s".toList, []⟩, ⟨"Cookie".toList, []⟩, ⟨"Help".toList, []⟩],
      [], [], [], 0⟩
    [⟨['1'], "Accept %s".toList, "en".toList⟩,
     ⟨['2'], "Cookie".toList, "en".toList⟩,
     ⟨['3'], "Help".toList, "en".toList⟩]
    [(['1'], some "Godta alle".toList), (['2'], none)]
    rfl (by decide) (by decide) (by decide) (by decide)
  exact ⟨(H.2.1 ['1'] "Godta alle".toList 0 "msgid" (by decide) (by decide)).1, H.1⟩

/-- **C8.** When the batch-level translate call raises, the run does not
fail: the driver invokes the capability exactly once per individual item
of that batch (calls grow by `1 + batch.length`); for each item at its
position in the batch, a per-item success follows the same
validate-then-write logic as a batch success — the returned value is
written to the item's entry, the id is counted, and the placeholder
warning is recorded whenever the validator flags missing tokens against
the item's text — while a per-item failure is recorded in the failures
list with the item's id, text and error description and the item's
catalog entry is left unmodified; and remaining items (covered by the
per-position clauses) and remaining batches (each loop iteration issues
at least one capability call, whatever came before) are still
processed. -/
theorem claim_C8_batch_fallback
    (oracle : Oracle) (idMap : IdMap) (st : DriverState) (batch : List WorkItem)
    (e : Str)
    (ho : oracle st.calls batch = Except.error e)
    (hwb : WellBehaved oracle)
    (hinj : ∀ x ∈ idMap, ∀ y ∈ idMap, x.2.1 = y.2.1 → x.1 = y.1)
    (hvalid : ∀ x ∈ idMap, x.2.1 < st.entries.length)
    (hnd : (batch.map WorkItem.id).Nodup) :
    (processBatch oracle idMap st batch).calls = st.calls + 1 + batch.length ∧
    (∀ pre it post, batch = pre ++ it :: post →
      (∀ err, oracle (st.calls + 1 + pre.length) [it] = Except.error err →
        (⟨it.id, it.text, err⟩ : FailedItem) ∈
          (processBatch oracle idMap st batch).failed ∧
        (∀ i fld, lookupIdMap idMap it.id = some (i, fld) →
          (processBatch oracle idMap st batch).entries[i]? =
            st.entries[i]?)) ∧
      (∀ pairs tr, oracle (st.calls + 1 + pre.length) [it] = Except.ok pairs →
        (it.id, some tr) ∈ pairs →
        ∀ i fld, lookupIdMap idMap it.id = some (i, fld) →
          ((processBatch oracle idMap st batch).entries[i]?).map
            POEntry.msgstr = some tr ∧
          it.id ∈ (processBatch oracle idMap st batch).translatedIds ∧
          (¬(validate_placeholders it.text tr).isEmpty = true →
            (⟨it.id, it.text, tr, validate_placeholders it.text tr⟩ :
              PhWarning) ∈
              (processBatch oracle idMap st batch).warnings))) ∧
    (∀ (batches : List (List WorkItem)) (st0 : DriverState),
      st0.calls + batches.length ≤
        (batches.foldl (processBatch oracle idMap) st0).calls) := by
  have hred := processBatch_err_eq oracle idMap st batch e ho
  refine ⟨?_, ?_, ?_⟩
  · rw [hred, foldItems_calls]
  · intro pre it post hsplit
    subst hsplit
    rw [hred]
    exact foldItems_item_spec oracle idMap hwb hinj pre it post
      { st with calls := st.calls + 1 } hvalid hnd
  · intro batches st0
    exact foldBatches_calls_ge oracle idMap batches st0

/-- **C8 witness.** The P6 scenario through the universal theorem: a
3-item batch whose batch call fails; per-item calls succeed for items 1
and 3 (dropping item 1's `%s` placeholder) and fail for item 2.  Exactly
4 capability calls happen (one batch call plus one per item); item 2's
failure is recorded with its id, text and error while its entry stays
untouched; items 1 and 3 have their translations written; item 1 is
counted and its placeholder warning recorded even though the write went
through. -/
theorem claim_C8_batch_fallback_witness :
    (processBatch
        (fun _ items =>
          match items with
          | [it] =>
            if it.id == natToId 2 then Except.error "item two down".toList
            else Except.ok [(it.id, some "Godta alle".toList)]
          | _ => Except.error "batch down".toList)
        [(natToId 1, 0, "msgid"), (natToId 2, 1, "msgid"),
         (natToId 3, 2, "msgid")]
        ⟨[⟨"Accept %s".toList, []⟩, ⟨"Cookie Settings".toList, []⟩,
          ⟨"Help".toList, []⟩], [], [], [], 0⟩
        [⟨natToId 1, "Accept %s".toList, "en".toList⟩,
         ⟨natToId 2, "Cookie Settings".toList, "en".toList⟩,
         ⟨natToId 3, "Help".toList, "en".toList⟩]).calls = 4 ∧
    (⟨natToId 2, "Cookie Settings".toList, "item two down".toList⟩ :
        FailedItem) ∈
      (processBatch
        (fun _ items =>
          match items with
          | [it] =>
            if it.id == natToId 2 then Except.error "item two down".toList
            else Except.ok [(it.id, some "Godta alle".toList)]
          | _ => Except.error "batch down".toList)
        [(natToId 1, 0, "msgid"), (natToId 2, 1, "msgid"),
         (natToId 3, 2, "msgid")]
        ⟨[⟨"Accept %s".toList, []⟩, ⟨"Cookie Settings".toList, []⟩,
          ⟨"Help".toList, []⟩], [], [], [], 0⟩
        [⟨natToId 1, "Accept %s".toList, "en".toList⟩,
         ⟨natToId 2, "Cookie Settings".toList, "en".toList⟩,
         ⟨natToId 3, "Help".toList, "en".toList⟩]).failed ∧
    (processBatch
        (fun _ items =>
          match items with
          | [it] =>
            if it.id == natToId 2 then Except.error "item two down".toList
            else Except.ok [(it.id, some "Godta alle".toList)]
          | _ => Except.error "batch down".toList)
        [(natToId 1, 0, "msgid"), (natToId 2, 1, "msgid"),
         (natToId 3, 2, "msgid")]
        ⟨[⟨"Accept %s".toList, []⟩, ⟨"Cookie Settings".toList, []⟩,
          ⟨"Help".toList, []⟩], [], [], [], 0⟩
        [⟨natToId 1, "Accept %s".toList, "en".toList⟩,
         ⟨natToId 2, "Cookie Settings".toList, "en".toList⟩,
         ⟨natToId 3, "Help".toList, "en".toList⟩]).entries[1]? =
      some (⟨"Cookie Settings".toList, []⟩ : POEntry) ∧
    ((processBatch
        (fun _ items =>
          match items with
          | [it] =>
            if it.id == natToId 2 then Except.error "item two down".toList
            else Except.ok [(it.id, some "Godta alle".toList)]
          | _ => Except.error "batch down".toList)
        [(natToId 1, 0, "msgid"), (natToId 2, 1, "msgid"),
         (natToId 3, 2, "msgid")]
        ⟨[⟨"Accept %s".toList, []⟩, ⟨"Cookie Settings".toList, []⟩,
          ⟨"Help".toList, []⟩], [], [], [], 0⟩
        [⟨natToId 1, "Accept %s".toList, "en".toList⟩,
         ⟨natToId 2, "Cookie Settings".toList, "en".toList⟩,
         ⟨natToId 3, "Help".toList, "en".toList⟩]).entries[0]?).map
      POEntry.msgstr = some "Godta alle".toList ∧
    natToId 1 ∈
      (processBatch
        (fun _ items =>
          match items with
          | [it] =>
            if it.id == natToId 2 then Except.error "item two down".toList
            else Except.ok [(it.id, some "Godta alle".toList)]
          | _ => Except.error "batch down".toList)
        [(natToId 1, 0, "msgid"), (natToId 2, 1, "msgid"),
         (natToId 3, 2, "msgid")]
        ⟨[⟨"Accept %s".toList, []⟩, ⟨"Cookie Settings".toList, []⟩,
          ⟨"Help".toList, []⟩], [], [], [], 0⟩
        [⟨natToId 1, "Accept %s".toList, "en".toList⟩,
         ⟨natToId 2, "Cookie Settings".toList, "en".toList⟩,
         ⟨natToId 3, "Help".toList, "en".toList⟩]).translatedIds ∧
    (⟨natToId 1, "Accept %s".toList, "Godta alle".toList,
        ["%s".toList]⟩ : PhWarning) ∈
      (processBatch
        (fun _ items =>
          match items with
          | [it] =>
            if it.id == natToId 2 then Except.error "item two down".toList
            else Except.ok [(it.id, some "Godta alle".toList)]
          | _ => Except.error "batch down".toList)
        [(natToId 1, 0, "msgid"), (natToId 2, 1, "msgid"),
         (natToId 3, 2, "msgid")]
        ⟨[⟨"Accept %s".toList, []⟩, ⟨"Cookie Settings".toList, []⟩,
          ⟨"Help".toList, []⟩], [], [], [], 0⟩
        [⟨natToId 1, "Accept %s".toList, "en".toList⟩,
         ⟨natToId 2, "Cookie Settings".toList, "en".toList⟩,
         ⟨natToId 3, "Help".toList, "en".toList⟩]).warnings ∧
    ((processBatch
        (fun _ items =>
          match items with
          | [it] =>
            if it.id == natToId 2 then Except.error "item two down".toList
            else Except.ok [(it.id, some "Godta alle".toList)]
          | _ => Except.error "batch down".toList)
        [(natToId 1, 0, "msgid"), (natToId 2, 1, "msgid"),
         (natToId 3, 2, "msgid")]
        ⟨[⟨"Accept %s".toList, []⟩, ⟨"Cookie Settings".toList, []⟩,
          ⟨"Help".toList, []⟩], [], [], [], 0⟩
        [⟨natToId 1, "Accept %s".toList, "en".toList⟩,
         ⟨natToId 2, "Cookie Settings".toList, "en".toList⟩,
         ⟨natToId 3, "Help".toList, "en".toList⟩]).entries[2]?).map
      POEntry.msgstr = some "Godta alle".toList := by
  have hwb : WellBehaved
      (fun _ items =>
        match items with
        | [it] =>
          if it.id == natToId 2 then Except.error "item two down".toList
          else Except.ok [(it.id, some "Godta alle".toList)]
        | _ => Except.error "batch down".toList) := by
    intro n items pairs h
    dsimp only at h
    split at h
    · split at h
      · exact nomatch h
      · obtain rfl : pairs = _ := (Except.ok.inj h).symm
        exact ⟨by simp, by intro p hp; simp at hp; simp [hp]⟩
    · exact nomatch h
  have H := claim_C8_batch_fallback
    (fun _ items =>
      match items with
      | [it] =>
        if it.id == natToId 2 then Except.error "item two down".toList
        else Except.ok [(it.id, some "Godta alle".toList)]
      | _ => Except.error "batch down".toList)
    [(natToId 1, 0, "msgid"), (natToId 2, 1, "msgid"), (natToId 3, 2, "msgid")]
    ⟨[⟨"Accept %s".toList, []⟩, ⟨"Cookie Settings".toList, []⟩,
      ⟨"Help".toList, []⟩], [], [], [], 0⟩
    [⟨natToId 1, "Accept %s".toList, "en".toList⟩,
     ⟨natToId 2, "Cookie Settings".toList, "en".toList⟩,
     ⟨natToId 3, "Help".toList, "en".toList⟩]
    "batch down".toList rfl hwb (by decide) (by decide) (by decide)
  have H2 := H.2.1 [⟨natToId 1, "Accept %s".toList, "en".toList⟩]
    ⟨natToId 2, "Cookie Settings".toList, "en".toList⟩
    [⟨natToId 3, "Help".toList, "en".toList⟩] rfl
  have H1 := H.2.1 []
    ⟨natToId 1, "Accept %s".toList, "en".toList⟩
    [⟨natToId 2, "Cookie Settings".toList, "en".toList⟩,
     ⟨natToId 3, "Help".toList, "en".toList⟩] rfl
  have H3 := H.2.1 [⟨natToId 1, "Accept %s".toList, "en".toList⟩,
      ⟨natToId 2, "Cookie Settings".toList, "en".toList⟩]
    ⟨natToId 3, "Help".toList, "en".toList⟩ [] rfl
  have H2e := H2.1 "item two down".toList rfl
  have H1ok := H1.2 [(natToId 1, some "Godta alle".toList)]
    "Godta alle".toList rfl (by decide) 0 "msgid" rfl
  have H3ok := H3.2 [(natToId 3, some "Godta alle".toList)]
    "Godta alle".toList rfl (by decide) 2 "msgid" rfl
  exact ⟨H.1, H2e.1, H2e.2 1 "msgid" rfl, H1ok.1, H1ok.2.1,
    H1ok.2.2 (by decide), H3ok.1⟩

/-- **C10.** A batch response holding a valid id followed by an id
missing from the lookup makes the success loop raise mid-application:
the write and count already performed for the valid id are retained, the
whole batch degrades to per-item fallback, and the per-item retry writes
and counts the already-applied item a second time — the partial response
is not applied atomically.  Here id `1`'s entry is written during the
batch application and again in fallback, so it is counted twice
(`translatedIds = [1, 1, 2]`, `translated = 3` for 2 work items), with
no failure recorded and 3 capability calls in total. -/
theorem claim_C10_partial_response_retained :
    (translate_po_file_state
        (fun n _ =>
          if n == 0 then
            Except.ok [(natToId 1, some "Godta alle".toList),
                       ("zz".toList, some "x".toList)]
          else if n == 1 then Except.ok [(natToId 1, some "Godta alle".toList)]
          else Except.ok [(natToId 2,
                 some "Innstillinger for informasjonskapsler".toList)])
        [⟨"Accept All".toList, []⟩, ⟨"Cookie Settings".toList, []⟩]
        2 "auto" true) =
      { entries := [⟨"Accept All".toList, "Godta alle".toList⟩,
                    ⟨"Cookie Settings".toList,
                     "Innstillinger for informasjonskapsler".toList⟩],
        translatedIds := [natToId 1, natToId 1, natToId 2],
        warnings := [],
        failed := [],
        calls := 3 } ∧
    (translate_po_file
        (fun n _ =>
          if n == 0 then
            Except.ok [(natToId 1, some "Godta alle".toList),
                       ("zz".toList, some "x".toList)]
          else if n == 1 then Except.ok [(natToId 1, some "Godta alle".toList)]
          else Except.ok [(natToId 2,
                 some "Innstillinger for informasjonskapsler".toList)])
        [⟨"Accept All".toList, []⟩, ⟨"Cookie Settings".toList, []⟩]
        2 "auto" true).translated = 3 := by
  decide

/-- **C1 counterexample.** As stated — for *any* behaviour of the
translation capability — the coverage inequality fails: a batch response
holding the batch's id and one foreign id gets the item written and
counted, then degrades to fallback, where the per-item retry counts the
same item again, so `translated = 2 > 1 = totalToTranslate` (and the id
is counted twice). -/
theorem claim_C1_counterexample :
    ¬ ((translate_po_file
          (fun n _ =>
            if n == 0 then
              Except.ok [(natToId 1, some "Godta alle".toList),
                         ("zz".toList, some "x".toList)]
            else Except.ok [(natToId 1, some "Godta alle".toList)])
          [⟨"Accept All".toList, []⟩]
          1 "auto" true).translated +
        (((translate_po_file_state
             (fun n _ =>
               if n == 0 then
                 Except.ok [(natToId 1, some "Godta alle".toList),
                            ("zz".toList, some "x".toList)]
               else Except.ok [(natToId 1, some "Godta alle".toList)])
             [⟨"Accept All".toList, []⟩]
             1 "auto" true).failed.map FailedItem.id).dedup).length ≤
        (translate_po_file
          (fun n _ =>
            if n == 0 then
              Except.ok [(natToId 1, some "Godta alle".toList),
                         ("zz".toList, some "x".toList)]
            else Except.ok [(natToId 1, some "Godta alle".toList)])
          [⟨"Accept All".toList, []⟩]
          1 "auto" true).total_to_translate) := by
  decide

end POTrans
